import Mathlib

/-!
Verification of the map/visibility core of the 2126-roguelikedev repository
(`src/map.ts`, plus the movement handlers of the actions module).

The TypeScript is shallowly embedded: JS number coordinates become `Int`,
the string-keyed hash maps (`TileMap`, `WallSet`, the door map) become
functions from their (injectively keyed) domain, and JS `Map` objects whose
iteration order matters become association lists in insertion order.
Randomness (`randint`, `RNG.getItem`) is modelled by oracle streams supplied
as an explicit `Gen` parameter, so "for every generated GameMap" becomes a
universal quantification over the oracle.  Functions that can throw are
embedded as `Option`-valued, `none` marking the thrown path.
-/

/-- Tile coordinate, from `Point` in entity.ts / map.ts. -/
structure Point where
  x : Int
  y : Int
deriving DecidableEq, Repr

/-- `type Side = 'W' | 'N'` from map.ts. -/
inductive Side where
  | W
  | N
deriving DecidableEq, Repr

/-- `type Edge = {x, y, s}` from map.ts. -/
structure Edge where
  x : Int
  y : Int
  s : Side
deriving DecidableEq, Repr

abbrev RoomId := Nat

/-- `type TileData = {roomId}` from map.ts. -/
structure TileData where
  roomId : RoomId
deriving DecidableEq, Repr

/-- `TileMap<TileData>`: keyed by the injective string key `x,y`, so we
model it as a function on points. -/
def TileMap := Point → Option TileData

def TileMap.empty : TileMap := fun _ => none

def TileMap.get (m : TileMap) (p : Point) : Option TileData := m p

def TileMap.has (m : TileMap) (p : Point) : Bool := (m p).isSome

def TileMap.set (m : TileMap) (p : Point) (v : TileData) : TileMap :=
  fun q => if q = p then some v else m q

/-- `WallSet`: keyed by the injective string key `x,y,s`. -/
def WallSet := Edge → Bool

def WallSet.empty : WallSet := fun _ => false

def WallSet.has (w : WallSet) (e : Edge) : Bool := w e

def WallSet.add (w : WallSet) (e : Edge) : WallSet :=
  fun d => if d = e then true else w d

def WallSet.remove (w : WallSet) (e : Edge) : WallSet :=
  fun d => if d = e then false else w d

/-- Entry of `gameMap.doors`: `{tile1, tile2, open}`. -/
structure Door where
  tile1 : Point
  tile2 : Point
  isOpen : Bool
deriving DecidableEq, Repr

/-- `doors : Map<String, Door>` keyed by the injective `edgeToKey`. -/
def DoorMap := Edge → Option Door

def DoorMap.empty : DoorMap := fun _ => none

def DoorMap.get (m : DoorMap) (e : Edge) : Option Door := m e

def DoorMap.set (m : DoorMap) (e : Edge) (d : Door) : DoorMap :=
  fun e2 => if e2 = e then some d else m e2

/-- `type Room` from map.ts; `adjacent` entries are `{roomId, doorId}`. -/
structure Room where
  center : Point
  tiles : List Point
  adjacent : List (RoomId × Edge)
  explored : Bool
deriving DecidableEq, Repr

/-- The JS `Map<RoomId, Room>`: an association list in insertion order. -/
abbrev RoomList := List (RoomId × Room)

/-- The `GameMap` aggregate (map-structure fields only; entity placement is
out of scope of the map core). -/
structure GameMap where
  dungeonLevel : Int
  tiles : TileMap
  walls : WallSet
  rooms : RoomList
  doors : DoorMap

/-- `edgeBetween(a, b)` from map.ts, lines 98-104. -/
def edgeBetween (a b : Point) : Option Edge :=
  if a.x = b.x ∧ a.y = b.y - 1 then some ⟨b.x, b.y, Side.N⟩
  else if a.x = b.x ∧ a.y = b.y + 1 then some ⟨a.x, a.y, Side.N⟩
  else if a.x = b.x - 1 ∧ a.y = b.y then some ⟨b.x, b.y, Side.W⟩
  else if a.x = b.x + 1 ∧ a.y = b.y then some ⟨a.x, a.y, Side.W⟩
  else none

/-- The two tiles separated by a canonical edge: a `W` edge of `(x,y)`
separates `(x-1,y)` and `(x,y)`; an `N` edge separates `(x,y-1)` and
`(x,y)`. -/
def edgeSides (e : Edge) : Point × Point :=
  match e.s with
  | Side.W => (⟨e.x - 1, e.y⟩, ⟨e.x, e.y⟩)
  | Side.N => (⟨e.x, e.y - 1⟩, ⟨e.x, e.y⟩)

/-- 4-directional (orthogonal) adjacency of tile coordinates. -/
def adj4 (a b : Point) : Prop :=
  (a.x = b.x ∧ (a.y = b.y - 1 ∨ a.y = b.y + 1)) ∨
  (a.y = b.y ∧ (a.x = b.x - 1 ∨ a.x = b.x + 1))

instance : DecidablePred fun ab : Point × Point => adj4 ab.1 ab.2 :=
  fun _ => by unfold adj4; infer_instance

instance (a b : Point) : Decidable (adj4 a b) := by unfold adj4; infer_instance

/-- 8-directional adjacency (orthogonal or diagonal, not equal). -/
def adj8 (a b : Point) : Prop :=
  (a.x - b.x) ≤ 1 ∧ (b.x - a.x) ≤ 1 ∧ (a.y - b.y) ≤ 1 ∧ (b.y - a.y) ≤ 1 ∧ a ≠ b

instance (a b : Point) : Decidable (adj8 a b) := by unfold adj8; infer_instance

/-- `setExplored(at)` from map.ts, lines 154-159.  `none` is the thrown
`"Invariant violated: setExplored on a non-room"`. -/
def setExplored (m : GameMap) (p : Point) : Option GameMap :=
  match m.tiles.get p with
  | none => none
  | some td =>
    match m.rooms.lookup td.roomId with
    | none => none
    | some _ =>
      let rooms2 := m.rooms.map (fun ir =>
        if ir.1 = td.roomId then (ir.1, { ir.2 with explored := true }) else ir)
      some { m with rooms := rooms2 }

/-- `isExplored(at)` from map.ts, lines 160-163.  The chain
`this.rooms.get(tileData?.roomId)?.explored` never throws; it evaluates to
`undefined` (falsy), modelled `none`, when the point is outside any room. -/
def isExplored (m : GameMap) (p : Point) : Option Bool :=
  match m.tiles.get p with
  | none => none
  | some td => (m.rooms.lookup td.roomId).map Room.explored

/-- The loop body of `isVisible` over `room.adjacent` (map.ts lines
172-182).  Short-circuit `&&` means `door.tile1` is only dereferenced when
the room id matches; a missing door at that point would crash, modelled
`none`. -/
def visAdjLoop (m : GameMap) (fro : Point) (r2 : Option RoomId) :
    List (RoomId × Edge) → Option Bool
  | [] => some false
  | (roomId, doorId) :: rest =>
    if some roomId = r2 then
      match m.doors.get doorId with
      | none => none
      | some door =>
        if (door.tile1.x = fro.x ∧ door.tile1.y = fro.y) ∨
           (door.tile2.x = fro.x ∧ door.tile2.y = fro.y) then
          some true
        else
          visAdjLoop m fro r2 rest
    else
      visAdjLoop m fro r2 rest

/-- `isVisible(from, to)` from map.ts, lines 164-184.  `none` covers the
thrown `"isVisible should be called from inside a room"` and the crash on a
missing room or door record. -/
def isVisible (m : GameMap) (fro til : Point) : Option Bool :=
  match m.tiles.get fro with
  | none => none
  | some tile1 =>
    let r2 : Option RoomId := (m.tiles.get til).map TileData.roomId
    if r2 = some tile1.roomId then
      some true
    else
      match m.rooms.lookup tile1.roomId with
      | none => none
      | some room => visAdjLoop m fro r2 room.adjacent

/-! ### The `edges` map of the actions module

`canMoveTo` and `playerMoveBy` (actions module, `src/unnamed/part_001`)
read `gameMap.edges`, a container whose definition is not among the given
sources. -/

/-- Modelled from the spec: the edge-state values `Wall`, `ClosedDoor`,
`OpenDoor` of the edge→EdgeState mapping (spec §3; the diary settles on "a
Map from edges to an enum: wall | closed-door | open-door"). -/
inductive EdgeState where
  | wall
  | closedDoor
  | openDoor
deriving DecidableEq, Repr

/-- Modelled from the spec: `gameMap.edges`, the edge→EdgeState mapping
(absent = open floor).  Not defined in the given sources; keys are edges
(injectively keyed), so a function on `Edge`. -/
def EdgeMap := Edge → Option EdgeState

/-- `gameMap.edges.get(edge)` where `edge` may be `undefined` (non-adjacent
tiles): `get(undefined)` is `undefined`. -/
def edgesGet (edges : EdgeMap) (e : Option Edge) : Option EdgeState :=
  e.bind edges

/-- `gameMap.edges.set(edge, v)`; only reached with a defined edge. -/
def edgesSet (edges : EdgeMap) (e : Option Edge) (v : EdgeState) : EdgeMap :=
  fun e2 => if some e2 = e then some v else edges e2

/-- `canMoveTo(entity, x, y)` from the actions module, lines 12-16:
`let edgeData = gameMap.edges.get(edge); return !edgeData || edgeData === 'open-door'`. -/
def canMoveTo (edges : EdgeMap) (loc : Point) (x y : Int) : Bool :=
  let edgeData := edgesGet edges (edgeBetween loc ⟨x, y⟩)
  edgeData.isNone || edgeData = some EdgeState.openDoor

/-- The map-relevant state touched by `playerMoveBy`: the edge map and the
player's tile.  Entity bookkeeping (attack targets) is external. -/
structure MoveState where
  edges : EdgeMap
  playerLoc : Point

/-- `playerMoveBy(dx, dy)` from the actions module, lines 250-268,
restricted to map state.  `blockingAt` abstracts
`entities.blockingEntityAt` (a blocking entity other than the player);
`attack` leaves the map state unchanged.  The returned `Bool` records
whether `enemiesMove()` ran, i.e. whether the action consumed the turn. -/
def playerMoveBy (blockingAt : Point → Bool) (st : MoveState) (dx dy : Int) :
    MoveState × Bool :=
  let x := st.playerLoc.x + dx
  let y := st.playerLoc.y + dy
  let edge := edgeBetween st.playerLoc ⟨x, y⟩
  if edgesGet st.edges edge = some EdgeState.closedDoor then
    ({ st with edges := edgesSet st.edges edge EdgeState.openDoor }, true)
  else if canMoveTo st.edges st.playerLoc x y then
    (if blockingAt ⟨x, y⟩ then st else { st with playerLoc := ⟨x, y⟩ }, true)
  else
    (st, false)

/-! ### Level generation (`createGameMap`, map.ts lines 147-297)

Randomness is supplied by oracle streams: `randint(a, b)` (rot.js
`getUniformInt`, inclusive on both ends, "like python's randint") and
`RNG.getItem` become explicit inputs.  Entity side effects (`populateRoom`,
player/stairs placement) do not touch the map structure and are omitted. -/

def WIDTH : Int := 40
def HEIGHT : Int := 30
def NUM_ROOMS : Nat := 100

/-- The random draws consumed by `createGameMap`, indexed by room id (the
seed and size draws) and by the canonical room pair (the door pick). -/
structure Gen where
  seeds : Nat → Point
  corridorRoll1 : Nat → Int
  corridorRoll2 : Nat → Int
  widthRoll : Nat → Int
  heightRoll : Nat → Int
  doorPick : RoomId → RoomId → Nat

/-- The `roomSize` draw (map.ts lines 201-204); `NUM_ROOMS * 0.9 = 90`. -/
def roomSizeFor (g : Gen) (roomId : Nat) : Int × Int :=
  if g.corridorRoll1 roomId < 10 then (10, 1)
  else if g.corridorRoll2 roomId < 10 then (1, 10)
  else if roomId < 90 then (g.widthRoll roomId, g.heightRoll roomId)
  else (15, 15)

structure Bounds where
  left : Int
  top : Int
  right : Int
  bottom : Int
deriving Repr

/-- `left/top/right/bottom` (map.ts lines 206-209); `w >> 1` is floor
division by 2 on the values `randint` can produce. -/
def boundsFor (seed : Point) (w h : Int) : Bounds :=
  let left := max 0 (seed.x - w.fdiv 2)
  let top := max 0 (seed.y - h.fdiv 2)
  { left := left, top := top,
    right := min (WIDTH - 1) (left + w - 1),
    bottom := min (HEIGHT - 1) (top + h - 1) }

def DIRS_8 : List (Int × Int) :=
  [(0, -1), (1, 0), (0, 1), (-1, 0), (-1, -1), (1, -1), (1, 1), (-1, 1)]

/-- One neighbor inspection of the growth loop body (map.ts lines 221-228):
skip when the neighbor `(current.x + d.1, current.y + d.2)` falls outside
the room footprint or is already claimed, else claim it for this room and
push it on the queue. -/
def expandTile (roomId : Nat) (b : Bounds) (current : Point)
    (acc : TileMap × List Point) (d : Int × Int) : TileMap × List Point :=
  if current.x + d.1 < b.left ∨ current.x + d.1 > b.right ∨
     current.y + d.2 < b.top ∨ current.y + d.2 > b.bottom then
    acc
  else if acc.1.has ⟨current.x + d.1, current.y + d.2⟩ = true then
    acc
  else
    (acc.1.set ⟨current.x + d.1, current.y + d.2⟩ ⟨roomId⟩,
     acc.2 ++ [(⟨current.x + d.1, current.y + d.2⟩ : Point)])

/-- The growth loop (map.ts lines 219-230) with the queue split into the
processed prefix `done` and the pending suffix; the returned list is the
full queue.  The fuel argument only bounds the number of iterations, which
the 40×30 grid already bounds by 1201, so with the fuel budget below the
loop always stops because the queue drained, never because fuel ran out. -/
def bfsLoop (roomId : Nat) (b : Bounds) :
    Nat → TileMap → List Point → List Point → TileMap × List Point
  | _, tiles, done, [] => (tiles, done)
  | 0, tiles, done, pending => (tiles, done ++ pending)
  | fuel + 1, tiles, done, current :: rest =>
    let step := DIRS_8.foldl (expandTile roomId b current) (tiles, [])
    bfsLoop roomId b fuel step.1 (done ++ [current]) (rest ++ step.2)

def BFS_FUEL : Nat := 2500

def setRoomTiles (rooms : RoomList) (roomId : RoomId) (ts : List Point) : RoomList :=
  rooms.map (fun ir => if ir.1 = roomId then (ir.1, { ir.2 with tiles := ts }) else ir)

/-- One iteration of the per-room growth loop (map.ts lines 200-232). -/
def growRoom (g : Gen) (st : TileMap × RoomList) (roomId : Nat) : TileMap × RoomList :=
  let wh := roomSizeFor g roomId
  let b := boundsFor (g.seeds roomId) wh.1 wh.2
  let start := g.seeds roomId
  if st.1.has start then
    st
  else
    let r := bfsLoop roomId b BFS_FUEL (st.1.set start ⟨roomId⟩) [] [start]
    (r.1, setRoomTiles st.2 roomId r.2)

/-- `new Map(seeds.map(...))` (map.ts lines 192-198). -/
def initRooms (g : Gen) : RoomList :=
  (List.range NUM_ROOMS).map
    (fun i => (i, { center := g.seeds i, tiles := [], adjacent := [], explored := false }))

def growAll (g : Gen) : TileMap × RoomList :=
  (List.range NUM_ROOMS).foldl (growRoom g) (TileMap.empty, initRooms g)

/-- `roomAt(x, y)` (map.ts line 258): `tiles.get(x,y)?.roomId ?? null`. -/
def roomAt (tiles : TileMap) (x y : Int) : Option RoomId :=
  (tiles.get ⟨x, y⟩).map TileData.roomId

/-- Door-candidate record `{tile1, tile2, edge}` keyed by the unordered
room pair `min,max`. -/
abbrev PairKey := Nat × Nat
abbrev DCand := Point × Point × Edge

/-- `doorCandidates : Map<string, DCand[]>` as an association list with JS
`Map.set` semantics: update in place when the key exists, append when new. -/
abbrev DCandMap := List (PairKey × List DCand)

def dcandSet (mp : DCandMap) (k : PairKey) (v : List DCand) : DCandMap :=
  if mp.any (fun kv => kv.1 = k) then
    mp.map (fun kv => if kv.1 = k then (k, v) else kv)
  else
    mp ++ [(k, v)]

structure WallState where
  walls : WallSet
  cands : DCandMap

/-- `addWallMaybe(x1, y1, x2, y2, edge)` (map.ts lines 245-257). -/
def addWallMaybe (tiles : TileMap) (st : WallState) (x1 y1 x2 y2 : Int)
    (edge : Edge) : WallState :=
  let room1 := roomAt tiles x1 y1
  let room2 := roomAt tiles x2 y2
  if room1 ≠ room2 then
    let walls := st.walls.add edge
    match room1, room2 with
    | some r1, some r2 =>
      let key : PairKey := (min r1 r2, max r1 r2)
      let entries := ((st.cands.lookup key).getD []) ++ [(⟨x1, y1⟩, ⟨x2, y2⟩, edge)]
      { walls := walls, cands := dcandSet st.cands key entries }
    | _, _ => { walls := walls, cands := st.cands }
  else st

/-- The four `addWallMaybe` calls per room tile (map.ts lines 261-264). -/
def wallPassTile (tiles : TileMap) (st : WallState) (p : Point) : WallState :=
  let st1 := addWallMaybe tiles st (p.x - 1) p.y p.x p.y ⟨p.x, p.y, Side.W⟩
  let st2 := addWallMaybe tiles st1 p.x (p.y - 1) p.x p.y ⟨p.x, p.y, Side.N⟩
  let st3 := addWallMaybe tiles st2 p.x p.y (p.x + 1) p.y ⟨p.x + 1, p.y, Side.W⟩
  addWallMaybe tiles st3 p.x p.y p.x (p.y + 1) ⟨p.x, p.y + 1, Side.N⟩

/-- The wall pass (map.ts lines 259-266). -/
def wallPass (tiles : TileMap) (rooms : RoomList) : WallState :=
  rooms.foldl (fun st ir => ir.2.tiles.foldl (wallPassTile tiles) st)
    { walls := WallSet.empty, cands := [] }

structure DoorPhase where
  walls : WallSet
  doors : DoorMap
  rooms : RoomList

def pushAdjacent (rooms : RoomList) (roomId : RoomId) (entry : RoomId × Edge) : RoomList :=
  rooms.map (fun ir =>
    if ir.1 = roomId then (ir.1, { ir.2 with adjacent := ir.2.adjacent ++ [entry] }) else ir)

/-- One iteration of the door pass (map.ts lines 269-278): `RNG.getItem`
picks one entry of the (always nonempty) candidate list for the pair. -/
def doorPassStep (g : Gen) (tiles : TileMap) (st : DoorPhase)
    (kv : PairKey × List DCand) : DoorPhase :=
  match kv.2.get? (g.doorPick kv.1.1 kv.1.2 % kv.2.length) with
  | none => st
  | some (tile1, tile2, edge) =>
    let roomId1 := roomAt tiles tile1.x tile1.y
    let roomId2 := roomAt tiles tile2.x tile2.y
    match roomId1, roomId2 with
    | some r1, some r2 =>
      { walls := st.walls.remove edge,
        doors := st.doors.set edge ⟨tile1, tile2, false⟩,
        rooms := pushAdjacent (pushAdjacent st.rooms r1 (r2, edge)) r2 (r1, edge) }
    | _, _ => st

/-- `RNG.getItem(doors)` picks an element of the candidate list. -/
def chosenFor (g : Gen) (kv : PairKey × List DCand) : Option DCand :=
  kv.2.get? (g.doorPick kv.1.1 kv.1.2 % kv.2.length)

/-- Rooms left after `createGameMap` removes the zero-tile rooms
(map.ts lines 236-240). -/
def prunedRooms (g : Gen) : RoomList :=
  (growAll g).2.filter (fun ir => ir.2.tiles.length != 0)

/-- The wall pass over the pruned rooms (map.ts lines 244-266). -/
def wallStage (g : Gen) : WallState :=
  wallPass (growAll g).1 (prunedRooms g)

/-- The door pass (map.ts lines 268-278). -/
def doorStage (g : Gen) : DoorPhase :=
  (wallStage g).cands.foldl (doorPassStep g (growAll g).1)
    { walls := (wallStage g).walls, doors := DoorMap.empty, rooms := prunedRooms g }

/-- `createGameMap(dungeonLevel)` (map.ts lines 147-297): grow the rooms,
drop the zero-tile ones, derive walls and door candidates, then carve one
door per touching room pair.  Player/stairs placement and `populateRoom`
only create entities and are outside the map structure. -/
def createGameMap (g : Gen) (dungeonLevel : Int) : GameMap :=
  { dungeonLevel := dungeonLevel, tiles := (growAll g).1, walls := (doorStage g).walls,
    rooms := (doorStage g).rooms, doors := (doorStage g).doors }

/-! ### Concrete generation scenarios

`genCorner` grows three rooms: room 0 fills `[0,2]×[3,5]`, room 1 fills
`[3,5]×[0,2]`, and room 2, seeded at `(3,3)` with a 2×2 footprint, claims
`(3,3)` and then the diagonal neighbor `(2,2)` (its orthogonal neighbors
all belong to rooms 0 and 1).  Rooms 3..99 are seeded on room 0's seed and
are skipped.  `genBorderSeed` seeds every room at `(40, 30)`, a value
`randint(0, WIDTH)`/`randint(0, HEIGHT)` can return since rot.js
`getUniformInt` is inclusive on both ends ("like python's randint"). -/

def genCorner : Gen where
  seeds := fun i =>
    if i = 0 then ⟨1, 4⟩ else if i = 1 then ⟨4, 1⟩ else if i = 2 then ⟨3, 3⟩ else ⟨1, 4⟩
  corridorRoll1 := fun _ => 100
  corridorRoll2 := fun _ => 100
  widthRoll := fun i => if i = 2 then 2 else 3
  heightRoll := fun i => if i = 2 then 2 else 3
  doorPick := fun _ _ => 1

def mapCorner : GameMap := createGameMap genCorner 1

def genBorderSeed : Gen where
  seeds := fun _ => ⟨40, 30⟩
  corridorRoll1 := fun _ => 100
  corridorRoll2 := fun _ => 100
  widthRoll := fun _ => 2
  heightRoll := fun _ => 2
  doorPick := fun _ _ => 0

def mapBorderSeed : GameMap := createGameMap genBorderSeed 1

/-- A minimal hand-built map used to instantiate the general theorems:
two tiles of a room `7`, no walls, rooms or doors. -/
def tinyTiles : TileMap := fun p => if p = ⟨0, 0⟩ ∨ p = ⟨1, 0⟩ then some ⟨7⟩ else none

def tinyMap : GameMap :=
  { dungeonLevel := 1, tiles := tinyTiles, walls := WallSet.empty,
    rooms := [], doors := DoorMap.empty }

/-- A minimal edge map: a closed door on the edge between `(0,0)` and
`(1,0)`, a wall between `(0,0)` and `(0,1)`, open floor elsewhere. -/
def tinyEdges : EdgeMap := fun e =>
  if e = ⟨1, 0, Side.W⟩ then some EdgeState.closedDoor
  else if e = ⟨0, 1, Side.N⟩ then some EdgeState.wall
  else none

/-! ### Predicates and invariants used by the development -/

/-- Every element of the list other than the head is 8-adjacent to some
earlier element. -/
def connFrom (l : List Point) : Prop :=
  ∀ i (h : i < l.length), i ≠ 0 → ∃ y ∈ l.take i, adj8 y (l.get ⟨i, h⟩)

/-- Invariant of the per-room growth fold: `remaining` are the room ids not
yet processed (their rooms still have empty tile lists). -/
structure GrowInv (remaining : List Nat) (st : TileMap × RoomList) : Prop where
  keys : st.2.map Prod.fst = List.range NUM_ROOMS
  sound : ∀ ir ∈ st.2, ∀ p ∈ (Prod.snd ir).tiles, st.1 p = some ⟨ir.1⟩
  complete : ∀ p td, st.1 p = some td → ∃ room, (td.roomId, room) ∈ st.2 ∧ p ∈ room.tiles
  nodup : ∀ ir ∈ st.2, (Prod.snd ir).tiles.Nodup
  conn : ∀ ir ∈ st.2, connFrom (Prod.snd ir).tiles
  fresh : ∀ i ∈ remaining, ∀ room, (i, room) ∈ st.2 → room.tiles = []
  adjNil : ∀ ir ∈ st.2, (Prod.snd ir).adjacent = []

/-- The facts that survive pruning of zero-tile rooms. -/
structure MapInv (tiles : TileMap) (rooms : RoomList) : Prop where
  keysNodup : (rooms.map Prod.fst).Nodup
  sound : ∀ ir ∈ rooms, ∀ p ∈ (Prod.snd ir).tiles, tiles p = some ⟨ir.1⟩
  complete : ∀ p td, tiles p = some td → ∃ room, (td.roomId, room) ∈ rooms ∧ p ∈ room.tiles
  nodup : ∀ ir ∈ rooms, (Prod.snd ir).tiles.Nodup
  conn : ∀ ir ∈ rooms, connFrom (Prod.snd ir).tiles
  nonempty : ∀ ir ∈ rooms, (Prod.snd ir).tiles ≠ []
  adjNil : ∀ ir ∈ rooms, (Prod.snd ir).adjacent = []

/-- The room ids on the two sides of an edge differ (`null` counts as a
distinct value). -/
def diffAt (tiles : TileMap) (e : Edge) : Prop :=
  roomAt tiles (edgeSides e).1.x (edgeSides e).1.y ≠
  roomAt tiles (edgeSides e).2.x (edgeSides e).2.y

/-- What the wall pass guarantees about each recorded door candidate
`{tile1, tile2, edge}` under its pair key. -/
def candOK (tiles : TileMap) (k : PairKey) (c : DCand) : Prop :=
  edgeSides c.2.2 = (c.1, c.2.1) ∧
  ∃ r1 r2, roomAt tiles c.1.x c.1.y = some r1 ∧
    roomAt tiles c.2.1.x c.2.1.y = some r2 ∧ r1 ≠ r2 ∧ k = (min r1 r2, max r1 r2)

def CandInv (tiles : TileMap) (cands : DCandMap) : Prop :=
  (cands.map Prod.fst).Nodup ∧
  ∀ kv ∈ cands, kv.2 ≠ [] ∧ ∀ c ∈ kv.2, candOK tiles kv.1 c

/-- `room.adjacent` of the room `r` contains the entry `en`. -/
def adjHas (rooms : RoomList) (r : RoomId) (en : RoomId × Edge) : Prop :=
  ∃ room, (r, room) ∈ rooms ∧ en ∈ room.adjacent

/-- Shape invariant of the door pass: room ids and tile lists never change,
only adjacency lists grow. -/
def RoomsShape (rooms1 : RoomList) (st : DoorPhase) : Prop :=
  st.rooms.map (fun ir => (ir.1, ir.2.tiles)) = rooms1.map (fun ir => (ir.1, ir.2.tiles))

/-- Every door recorded by the door pass is the chosen candidate of its
pair, closed. -/
def DoorsOK (g : Gen) (cands0 : DCandMap) (st : DoorPhase) : Prop :=
  ∀ e d, st.doors e = some d →
    ∃ kv, kv ∈ cands0 ∧ chosenFor g kv = some (d.tile1, d.tile2, e) ∧ d.isOpen = false

/-- The door, and both symmetric adjacency records, of the candidate chosen
for pair `kv` are present in the state. -/
def DoorPlaced (g : Gen) (tiles : TileMap) (kv : PairKey × List DCand)
    (st : DoorPhase) : Prop :=
  ∀ t1 t2 ed, chosenFor g kv = some (t1, t2, ed) →
  ∀ r1 r2, roomAt tiles t1.x t1.y = some r1 → roomAt tiles t2.x t2.y = some r2 →
    st.doors ed = some ⟨t1, t2, false⟩ ∧
    adjHas st.rooms r1 (r2, ed) ∧ adjHas st.rooms r2 (r1, ed)

/-- The edge `e` holds a door whose two side tiles belong to rooms `r1` and
`r2` (in either order). -/
def doorBetween (m : GameMap) (r1 r2 : RoomId) (e : Edge) : Prop :=
  ∃ d, m.doors.get e = some d ∧
    ((roomAt m.tiles d.tile1.x d.tile1.y = some r1 ∧
      roomAt m.tiles d.tile2.x d.tile2.y = some r2) ∨
     (roomAt m.tiles d.tile1.x d.tile1.y = some r2 ∧
      roomAt m.tiles d.tile2.x d.tile2.y = some r1))

/-- Room 0 of `mapCorner`, as generated (used to instantiate theorems). -/
def roomCorner0 : Room :=
  { center := ⟨1, 4⟩,
    tiles := [⟨1, 4⟩, ⟨1, 3⟩, ⟨2, 4⟩, ⟨1, 5⟩, ⟨0, 4⟩, ⟨0, 3⟩, ⟨2, 3⟩, ⟨2, 5⟩, ⟨0, 5⟩],
    adjacent := [(2, ⟨3, 3, Side.W⟩)],
    explored := false }

/-- Room 2 of `mapCorner`, as generated. -/
def roomCorner2 : Room :=
  { center := ⟨3, 3⟩,
    tiles := [⟨3, 3⟩, ⟨2, 2⟩],
    adjacent := [(0, ⟨3, 3, Side.W⟩), (1, ⟨3, 3, Side.N⟩)],
    explored := false }

/-- The unclaimed cells of a room footprint. -/
def freeSet (b : Bounds) (tiles : TileMap) : Finset (Int × Int) :=
  ((Finset.Icc b.left b.right) ×ˢ (Finset.Icc b.top b.bottom)).filter
    (fun q => tiles ⟨q.1, q.2⟩ = none)

set_option maxRecDepth 100000

/-! ### Claim theorems -/

/-- C2: for all tiles `p` and `q` that belong to the same room (same
`roomId`), `isVisible(p, q)` returns `true`, regardless of the room's
shape: the first branch of `isVisible` compares the two room ids only. -/
theorem C2_same_room_visible (m : GameMap) (p q : Point) (td1 td2 : TileData)
    (hp : m.tiles.get p = some td1) (hq : m.tiles.get q = some td2)
    (hr : td1.roomId = td2.roomId) : isVisible m p q = some true := by
  unfold isVisible
  rw [hp]
  simp only [hq, Option.map_some', hr]
  simp

theorem C2_same_room_visible_witness : isVisible tinyMap ⟨0, 0⟩ ⟨1, 0⟩ = some true :=
  C2_same_room_visible tinyMap ⟨0, 0⟩ ⟨1, 0⟩ ⟨7⟩ ⟨7⟩ (by decide) (by decide) rfl

/-- C3: for 4-directionally adjacent tiles `edgeBetween` is symmetric and
returns a canonical edge; for identical, diagonal, or non-adjacent pairs it
returns none. -/
theorem C3_edgeBetween_canonical (a b : Point) :
    (adj4 a b → edgeBetween a b = edgeBetween b a ∧ (edgeBetween a b).isSome = true) ∧
    (¬ adj4 a b → edgeBetween a b = none) := by
  constructor
  · intro h
    rcases h with ⟨hx, hy | hy⟩ | ⟨hy, hx | hx⟩
    · have h1 : edgeBetween a b = some ⟨b.x, b.y, Side.N⟩ := by
        unfold edgeBetween; rw [if_pos ⟨hx, hy⟩]
      have h2 : edgeBetween b a = some ⟨b.x, b.y, Side.N⟩ := by
        unfold edgeBetween
        rw [if_neg (by omega), if_pos (by omega)]
      simp [h1, h2]
    · have h1 : edgeBetween a b = some ⟨a.x, a.y, Side.N⟩ := by
        unfold edgeBetween; rw [if_neg (by omega), if_pos ⟨hx, hy⟩]
      have h2 : edgeBetween b a = some ⟨a.x, a.y, Side.N⟩ := by
        unfold edgeBetween; rw [if_pos (by omega)]
      simp [h1, h2]
    · have h1 : edgeBetween a b = some ⟨b.x, b.y, Side.W⟩ := by
        unfold edgeBetween
        rw [if_neg (by omega), if_neg (by omega), if_pos ⟨hx, hy⟩]
      have h2 : edgeBetween b a = some ⟨b.x, b.y, Side.W⟩ := by
        unfold edgeBetween
        rw [if_neg (by omega), if_neg (by omega), if_neg (by omega), if_pos (by omega)]
      simp [h1, h2]
    · have h1 : edgeBetween a b = some ⟨a.x, a.y, Side.W⟩ := by
        unfold edgeBetween
        rw [if_neg (by omega), if_neg (by omega), if_neg (by omega), if_pos ⟨hx, hy⟩]
      have h2 : edgeBetween b a = some ⟨a.x, a.y, Side.W⟩ := by
        unfold edgeBetween
        rw [if_neg (by omega), if_neg (by omega), if_pos (by omega)]
      simp [h1, h2]
  · intro h
    unfold adj4 at h
    unfold edgeBetween
    rw [if_neg (by omega), if_neg (by omega), if_neg (by omega), if_neg (by omega)]

theorem C3_edgeBetween_canonical_witness :
    edgeBetween ⟨0, 0⟩ ⟨1, 0⟩ = edgeBetween ⟨1, 0⟩ ⟨0, 0⟩ ∧
    edgeBetween ⟨0, 0⟩ ⟨1, 1⟩ = none ∧ edgeBetween ⟨0, 0⟩ ⟨0, 0⟩ = none :=
  ⟨((C3_edgeBetween_canonical ⟨0, 0⟩ ⟨1, 0⟩).1 (by decide)).1,
   (C3_edgeBetween_canonical ⟨0, 0⟩ ⟨1, 1⟩).2 (by decide),
   (C3_edgeBetween_canonical ⟨0, 0⟩ ⟨0, 0⟩).2 (by decide)⟩

/-- C9: `setExplored` at a point outside any room takes the thrown path
(`none`, the map is not returned), while `isExplored` at such a point
returns the JS `undefined` (`none`) without any throwing branch. -/
theorem C9_explored_outside_any_room (m : GameMap) (p : Point)
    (h : m.tiles.get p = none ∨
         ∃ td, m.tiles.get p = some td ∧ m.rooms.lookup td.roomId = none) :
    setExplored m p = none ∧ isExplored m p = none := by
  rcases h with h | ⟨td, h1, h2⟩
  · unfold setExplored isExplored
    rw [h]
    exact ⟨rfl, rfl⟩
  · unfold setExplored isExplored
    simp only [h1, h2]
    exact ⟨trivial, rfl⟩

theorem C9_explored_outside_any_room_witness :
    setExplored tinyMap ⟨5, 5⟩ = none ∧ isExplored tinyMap ⟨5, 5⟩ = none :=
  C9_explored_outside_any_room tinyMap ⟨5, 5⟩ (Or.inl (by decide))

/-- C8: `canMoveTo` is false across a `wall` or `closed-door` edge and true
across an `open-door` or absent edge; and when the player moves toward a
tile across a closed-door edge, `playerMoveBy` only flips that edge to
`open-door` (consuming the turn via `enemiesMove`), leaving the player's
position and every other edge unchanged. -/
theorem C8_movement_legality :
    (∀ (edges : EdgeMap) (loc tgt : Point) (e : Edge), edgeBetween loc tgt = some e →
      (edges e = some EdgeState.wall → canMoveTo edges loc tgt.x tgt.y = false) ∧
      (edges e = some EdgeState.closedDoor → canMoveTo edges loc tgt.x tgt.y = false) ∧
      (edges e = some EdgeState.openDoor → canMoveTo edges loc tgt.x tgt.y = true) ∧
      (edges e = none → canMoveTo edges loc tgt.x tgt.y = true)) ∧
    (∀ (blockingAt : Point → Bool) (st : MoveState) (dx dy : Int) (e : Edge),
      edgeBetween st.playerLoc ⟨st.playerLoc.x + dx, st.playerLoc.y + dy⟩ = some e →
      st.edges e = some EdgeState.closedDoor →
      (playerMoveBy blockingAt st dx dy).1.playerLoc = st.playerLoc ∧
      (playerMoveBy blockingAt st dx dy).1.edges e = some EdgeState.openDoor ∧
      (∀ e2, e2 ≠ e → (playerMoveBy blockingAt st dx dy).1.edges e2 = st.edges e2) ∧
      (playerMoveBy blockingAt st dx dy).2 = true) := by
  constructor
  · intro edges loc tgt e he
    have htgt : (⟨tgt.x, tgt.y⟩ : Point) = tgt := rfl
    unfold canMoveTo edgesGet
    rw [htgt, he]
    rcases hcase : edges e with _ | st <;> try simp [Option.bind, hcase]
    cases st <;> simp [hcase]
  · intro blockingAt st dx dy e he hclosed
    unfold playerMoveBy
    simp only [he]
    rw [show edgesGet st.edges (some e) = some EdgeState.closedDoor by
      unfold edgesGet; simpa using hclosed]
    simp only [if_pos rfl]
    refine ⟨rfl, ?_, ?_, rfl⟩
    · unfold edgesSet; simp
    · intro e2 h2
      unfold edgesSet
      simp [h2]

theorem C8_movement_legality_witness :
    canMoveTo tinyEdges ⟨0, 0⟩ 1 0 = false ∧
    canMoveTo tinyEdges ⟨0, 0⟩ 0 1 = false ∧
    canMoveTo tinyEdges ⟨0, 0⟩ (-1) 0 = true ∧
    (playerMoveBy (fun _ => false) ⟨tinyEdges, ⟨0, 0⟩⟩ 1 0).1.playerLoc = ⟨0, 0⟩ ∧
    (playerMoveBy (fun _ => false) ⟨tinyEdges, ⟨0, 0⟩⟩ 1 0).1.edges ⟨1, 0, Side.W⟩ =
      some EdgeState.openDoor ∧
    (playerMoveBy (fun _ => false) ⟨tinyEdges, ⟨0, 0⟩⟩ 1 0).1.edges ⟨0, 1, Side.N⟩ =
      some EdgeState.wall ∧
    (playerMoveBy (fun _ => false) ⟨tinyEdges, ⟨0, 0⟩⟩ 1 0).2 = true :=
  ⟨(C8_movement_legality.1 tinyEdges ⟨0, 0⟩ ⟨1, 0⟩ ⟨1, 0, Side.W⟩ (by decide)).2.1 (by decide),
   (C8_movement_legality.1 tinyEdges ⟨0, 0⟩ ⟨0, 1⟩ ⟨0, 1, Side.N⟩ (by decide)).1 (by decide),
   (C8_movement_legality.1 tinyEdges ⟨0, 0⟩ ⟨-1, 0⟩ ⟨0, 0, Side.W⟩ (by decide)).2.2.2 (by decide),
   (C8_movement_legality.2 (fun _ => false) ⟨tinyEdges, ⟨0, 0⟩⟩ 1 0 ⟨1, 0, Side.W⟩
      (by decide) (by decide)).1,
   (C8_movement_legality.2 (fun _ => false) ⟨tinyEdges, ⟨0, 0⟩⟩ 1 0 ⟨1, 0, Side.W⟩
      (by decide) (by decide)).2.1,
   (C8_movement_legality.2 (fun _ => false) ⟨tinyEdges, ⟨0, 0⟩⟩ 1 0 ⟨1, 0, Side.W⟩
      (by decide) (by decide)).2.2.1 ⟨0, 1, Side.N⟩ (by decide),
   (C8_movement_legality.2 (fun _ => false) ⟨tinyEdges, ⟨0, 0⟩⟩ 1 0 ⟨1, 0, Side.W⟩
      (by decide) (by decide)).2.2.2⟩

/-- C1: in `mapCorner`, rooms 0 and 2 share the door edge `(3,3,W)` whose
state is still `open: false` (ClosedDoor, exactly as generation left it),
yet `isVisible` from the door-adjacent tile `(2,3)` of room 0 into room 2
already returns `true`: the adjacency loop of `isVisible` never consults
`door.open` (the `TODO: what about open doors vs closed doors?` left in
map.ts), so a closed door does not block vision from the doorway, contrary
to the claim, while a non-doorway tile such as `(1,4)` correctly sees
nothing. -/
theorem C1_closed_door_grants_visibility :
    mapCorner.tiles.get ⟨2, 3⟩ = some ⟨0⟩ ∧
    mapCorner.tiles.get ⟨2, 2⟩ = some ⟨2⟩ ∧
    mapCorner.doors.get ⟨3, 3, Side.W⟩ = some ⟨⟨2, 3⟩, ⟨3, 3⟩, false⟩ ∧
    (mapCorner.rooms.lookup 0).map Room.adjacent = some [(2, ⟨3, 3, Side.W⟩)] ∧
    isVisible mapCorner ⟨2, 3⟩ ⟨2, 2⟩ = some true ∧
    isVisible mapCorner ⟨1, 4⟩ ⟨2, 2⟩ = some false := by
  refine ⟨by decide, by decide, by decide, by decide, by decide, by decide⟩

/-- C10: the room seeds are drawn with `randint(0, WIDTH)` and
`randint(0, HEIGHT)`, which are inclusive of the upper bound, and the seed
tile is claimed without any bounds check (only the ring expansion is
clamped to `[0, WIDTH-1]×[0, HEIGHT-1]`), so a generated map can store a
tile at `(40, 30)`, outside the `0 ≤ x < 40`, `0 ≤ y < 30` bounds. -/
theorem C10_seed_tile_out_of_bounds :
    mapBorderSeed.tiles.get ⟨40, 30⟩ = some ⟨0⟩ ∧
    (mapBorderSeed.rooms.lookup 0).map Room.tiles = some [⟨40, 30⟩, ⟨39, 29⟩] ∧
    ¬ ((40 : Int) < WIDTH) ∧ ¬ ((30 : Int) < HEIGHT) := by
  refine ⟨by decide, by decide, by decide, by decide⟩

/-- C7 fails on the code: room 2 of `mapCorner` is `[(3,3), (2,2)]`, and
the non-seed tile `(2,2)` is not 4-directionally adjacent to any other tile
of the room — the growth loop expands through all of `DIRS_8`, diagonals
included, so a room can claim a tile across a diagonal gap when both
orthogonal in-between tiles belong to earlier rooms. -/
theorem C7_diagonal_room_counterexample :
    (mapCorner.rooms.lookup 2).map Room.tiles = some [⟨3, 3⟩, ⟨2, 2⟩] ∧
    (∀ q ∈ [Point.mk 3 3, Point.mk 2 2], q ≠ ⟨2, 2⟩ → ¬ adj4 q ⟨2, 2⟩) ∧
    adj8 ⟨3, 3⟩ ⟨2, 2⟩ := by
  refine ⟨by decide, by decide, by decide⟩

/-! ### Generation invariants: proofs -/

theorem connFrom_nil : connFrom [] := by
  intro i h
  simp at h

theorem connFrom_singleton (p : Point) : connFrom [p] := by
  intro i h hi
  simp at h
  omega

theorem connFrom_append (A B : List Point) (hA : connFrom A)
    (hB : ∀ n ∈ B, ∃ y ∈ A, adj8 y n) : connFrom (A ++ B) := by
  intro i h hi
  by_cases hlt : i < A.length
  · obtain ⟨y, hy, hadj⟩ := hA i hlt hi
    refine ⟨y, ?_, ?_⟩
    · rw [List.take_append_eq_append_take]
      exact List.mem_append_left _ (by simpa [Nat.sub_eq_zero_of_le (le_of_lt hlt)] using hy)
    · have : (A ++ B).get ⟨i, h⟩ = A.get ⟨i, hlt⟩ := by
        rw [List.get_append]
      rw [this]
      exact hadj
  · push_neg at hlt
    have hmem : (A ++ B).get ⟨i, h⟩ ∈ B := by
      have hgt : (A ++ B).get ⟨i, h⟩ = B.get ⟨i - A.length, by
        simp at h; omega⟩ := by
        apply List.get_append_right
        omega
      rw [hgt]
      exact List.get_mem _ _ _
    obtain ⟨y, hy, hadj⟩ := hB _ hmem
    refine ⟨y, ?_, hadj⟩
    rw [List.take_append_eq_append_take]
    exact List.mem_append_left _ (by
      rw [List.take_of_length_le hlt]
      exact hy)

theorem adj8_of_dir (current : Point) (d : Int × Int) (hd : d ∈ DIRS_8) :
    adj8 current ⟨current.x + d.1, current.y + d.2⟩ := by
  obtain ⟨cx, cy⟩ := current
  simp only [DIRS_8, List.mem_cons, List.not_mem_nil, or_false] at hd
  rcases hd with rfl | rfl | rfl | rfl | rfl | rfl | rfl | rfl <;>
    simp [adj8, Point.mk.injEq] <;> omega

theorem expand_loop_spec (roomId : Nat) (b : Bounds) (current : Point) (base : TileMap)
    (queue : List Point) (dirs : List (Int × Int)) :
    ∀ (acc : TileMap × List Point),
    (∀ p, acc.1 p = if p ∈ queue ++ acc.2 then some ⟨roomId⟩ else base p) →
    (queue ++ acc.2).Nodup →
    (∀ n ∈ acc.2, adj8 current n) →
    (∀ q ∈ queue ++ acc.2, base q = none) →
    (∀ d ∈ dirs, d ∈ DIRS_8) →
    (∀ p, (dirs.foldl (expandTile roomId b current) acc).1 p =
       if p ∈ queue ++ (dirs.foldl (expandTile roomId b current) acc).2 then some ⟨roomId⟩
       else base p) ∧
    (queue ++ (dirs.foldl (expandTile roomId b current) acc).2).Nodup ∧
    (∀ n ∈ (dirs.foldl (expandTile roomId b current) acc).2, adj8 current n) ∧
    (∀ q ∈ queue ++ (dirs.foldl (expandTile roomId b current) acc).2, base q = none) := by
  induction dirs with
  | nil => intro acc h1 h2 h3 h4 _; exact ⟨h1, h2, h3, h4⟩
  | cons d rest ih =>
    intro acc h1 h2 h3 h4 hd
    have hdmem : d ∈ DIRS_8 := hd d (by simp)
    have hrest : ∀ d2 ∈ rest, d2 ∈ DIRS_8 := fun d2 hm => hd d2 (by simp [hm])
    simp only [List.foldl_cons]
    by_cases hskip : current.x + d.1 < b.left ∨ current.x + d.1 > b.right ∨
        current.y + d.2 < b.top ∨ current.y + d.2 > b.bottom
    · have heq : expandTile roomId b current acc d = acc := by
        unfold expandTile
        rw [if_pos hskip]
      simp only [heq]
      exact ih acc h1 h2 h3 h4 hrest
    · by_cases hhas : acc.1.has ⟨current.x + d.1, current.y + d.2⟩ = true
      · have heq : expandTile roomId b current acc d = acc := by
          unfold expandTile
          rw [if_neg hskip, if_pos hhas]
        simp only [heq]
        exact ih acc h1 h2 h3 h4 hrest
      · have heq : expandTile roomId b current acc d =
            (acc.1.set ⟨current.x + d.1, current.y + d.2⟩ ⟨roomId⟩,
             acc.2 ++ [(⟨current.x + d.1, current.y + d.2⟩ : Point)]) := by
          unfold expandTile
          rw [if_neg hskip, if_neg hhas]
        simp only [heq]
        have hnew : (⟨current.x + d.1, current.y + d.2⟩ : Point) ∉ queue ++ acc.2 := by
          intro hmem
          have hx := h1 ⟨current.x + d.1, current.y + d.2⟩
          rw [if_pos hmem] at hx
          unfold TileMap.has at hhas
          rw [hx] at hhas
          simp at hhas
        refine ih _ ?_ ?_ ?_ ?_ hrest
        · intro p
          unfold TileMap.set
          by_cases hp : p = ⟨current.x + d.1, current.y + d.2⟩
          · subst hp
            simp
          · simp only [if_neg hp]
            rw [h1 p]
            by_cases hq : p ∈ queue ++ acc.2
            · rw [if_pos hq, if_pos (by simp at hq ⊢; tauto)]
            · rw [if_neg hq, if_neg (by
                simp at hq ⊢
                push_neg
                exact ⟨hq.1, hq.2, hp⟩)]
        · have hnd : (queue ++ acc.2 ++ [(⟨current.x + d.1, current.y + d.2⟩ : Point)]).Nodup := by
            rw [List.nodup_append]
            refine ⟨h2, List.nodup_singleton _, ?_⟩
            intro a ha hb
            simp at hb
            subst hb
            exact hnew ha
          rw [List.append_assoc] at hnd
          exact hnd
        · intro n hn
          simp at hn
          rcases hn with hn | rfl
          · exact h3 n hn
          · exact adj8_of_dir current d hdmem
        · intro q hq
          by_cases hqn : q = ⟨current.x + d.1, current.y + d.2⟩
          · subst hqn
            have hx := h1 ⟨current.x + d.1, current.y + d.2⟩
            rw [if_neg hnew] at hx
            unfold TileMap.has at hhas
            rw [hx] at hhas
            rcases hbase : base ⟨current.x + d.1, current.y + d.2⟩ with _ | v
            · rfl
            · rw [hbase] at hhas
              simp at hhas
          · refine h4 q ?_
            rcases List.mem_append.mp hq with hm | hm
            · exact List.mem_append.mpr (Or.inl hm)
            · rcases List.mem_append.mp hm with hm | hm
              · exact List.mem_append.mpr (Or.inr hm)
              · simp at hm
                exact absurd hm hqn

theorem bfsLoop_spec (roomId : Nat) (b : Bounds) (base : TileMap) :
    ∀ (fuel : Nat) (tiles : TileMap) (done pending : List Point),
    (∀ p, tiles p = if p ∈ done ++ pending then some ⟨roomId⟩ else base p) →
    (done ++ pending).Nodup →
    connFrom (done ++ pending) →
    (∀ q ∈ done ++ pending, base q = none) →
    (∃ extra, (bfsLoop roomId b fuel tiles done pending).2 = done ++ pending ++ extra) ∧
    (∀ p, (bfsLoop roomId b fuel tiles done pending).1 p =
       if p ∈ (bfsLoop roomId b fuel tiles done pending).2 then some ⟨roomId⟩ else base p) ∧
    (bfsLoop roomId b fuel tiles done pending).2.Nodup ∧
    connFrom (bfsLoop roomId b fuel tiles done pending).2 ∧
    (∀ q ∈ (bfsLoop roomId b fuel tiles done pending).2, base q = none) := by
  intro fuel
  induction fuel with
  | zero =>
    intro tiles done pending h1 h2 h3 h4
    rcases pending with _ | ⟨current, rest⟩
    · simp only [bfsLoop]
      simp only [List.append_nil] at h1 h2 h3 h4
      exact ⟨⟨[], by simp⟩, h1, h2, h3, h4⟩
    · simp only [bfsLoop]
      exact ⟨⟨[], by simp⟩, h1, h2, h3, h4⟩
  | succ f ih =>
    intro tiles done pending h1 h2 h3 h4
    rcases pending with _ | ⟨current, rest⟩
    · simp only [bfsLoop]
      simp only [List.append_nil] at h1 h2 h3 h4
      exact ⟨⟨[], by simp⟩, h1, h2, h3, h4⟩
    · simp only [bfsLoop]
      have hstep := expand_loop_spec roomId b current base (done ++ current :: rest) DIRS_8
        (tiles, []) (by simpa using h1) (by simpa using h2) (by simp)
        (by simpa using h4) (fun d hd => hd)
      obtain ⟨e1, e2, e3, e4⟩ := hstep
      set step := DIRS_8.foldl (expandTile roomId b current) (tiles, []) with hstepdef
      have hcur : current ∈ done ++ current :: rest := by simp
      have hconn2 : connFrom ((done ++ current :: rest) ++ step.2) :=
        connFrom_append _ _ h3 (fun n hn => ⟨current, hcur, e3 n hn⟩)
      have hL : (done ++ [current]) ++ (rest ++ step.2) = (done ++ current :: rest) ++ step.2 := by
        simp
      have hres := ih step.1 (done ++ [current]) (rest ++ step.2)
        (by intro p; rw [hL]; exact e1 p)
        (by rw [hL]; simpa using e2)
        (by rw [hL]; exact hconn2)
        (by rw [hL]; exact e4)
      obtain ⟨⟨extra, hex⟩, hh1, hh2, hh3, hh4⟩ := hres
      refine ⟨⟨step.2 ++ extra, ?_⟩, hh1, hh2, hh3, hh4⟩
      rw [hex]
      simp

theorem setRoomTiles_mapFst (rooms : RoomList) (i : RoomId) (ts : List Point) :
    (setRoomTiles rooms i ts).map Prod.fst = rooms.map Prod.fst := by
  unfold setRoomTiles
  induction rooms with
  | nil => rfl
  | cons hd tl ih =>
    simp only [List.map_cons, ih]
    by_cases h : hd.1 = i <;> simp [h]

theorem mem_setRoomTiles_cases (rooms : RoomList) (i : RoomId) (ts : List Point)
    (k : RoomId) (room : Room) (hm : (k, room) ∈ setRoomTiles rooms i ts) :
    ((k, room) ∈ rooms ∧ k ≠ i) ∨
    (k = i ∧ ∃ room0, (i, room0) ∈ rooms ∧ room = { room0 with tiles := ts }) := by
  unfold setRoomTiles at hm
  obtain ⟨ir, hir, heq⟩ := List.mem_map.mp hm
  obtain ⟨k0, room0⟩ := ir
  by_cases h : k0 = i
  · subst h
    rw [if_pos rfl] at heq
    injection heq with h1 h2
    subst h1
    exact Or.inr ⟨rfl, room0, hir, h2.symm⟩
  · rw [if_neg h] at heq
    injection heq with h1 h2
    subst h1
    subst h2
    exact Or.inl ⟨hir, h⟩

theorem mem_setRoomTiles_self (rooms : RoomList) (i : RoomId) (ts : List Point)
    (room0 : Room) (h : (i, room0) ∈ rooms) :
    (i, { room0 with tiles := ts }) ∈ setRoomTiles rooms i ts := by
  unfold setRoomTiles
  refine List.mem_map.mpr ⟨(i, room0), h, ?_⟩
  rw [if_pos rfl]

theorem mem_setRoomTiles_of_ne (rooms : RoomList) (i : RoomId) (ts : List Point)
    (k : RoomId) (room : Room) (h : (k, room) ∈ rooms) (hk : k ≠ i) :
    (k, room) ∈ setRoomTiles rooms i ts := by
  unfold setRoomTiles
  refine List.mem_map.mpr ⟨(k, room), h, ?_⟩
  rw [if_neg hk]

theorem growRoom_inv (g : Gen) (i : Nat) (rest : List Nat) (st : TileMap × RoomList)
    (hinv : GrowInv (i :: rest) st) (hni : i ∉ rest) (hiN : i < NUM_ROOMS) :
    GrowInv rest (growRoom g st i) := by
  obtain ⟨hkeys, hsound, hcomp, hnodup, hconn, hfresh, hadj⟩ := hinv
  unfold growRoom
  by_cases hhas : st.1.has (g.seeds i) = true
  · rw [if_pos hhas]
    exact ⟨hkeys, hsound, hcomp, hnodup, hconn,
      fun j hj room hm => hfresh j (by simp [hj]) room hm, hadj⟩
  · rw [if_neg hhas]
    have hstartnone : st.1 (g.seeds i) = none := by
      unfold TileMap.has at hhas
      rcases hx : st.1 (g.seeds i) with _ | v
      · rfl
      · rw [hx] at hhas
        simp at hhas
    have hspec := bfsLoop_spec i (boundsFor (g.seeds i) (roomSizeFor g i).1 (roomSizeFor g i).2)
      st.1 BFS_FUEL (st.1.set (g.seeds i) ⟨i⟩) [] [g.seeds i]
      (by
        intro p
        unfold TileMap.set
        by_cases hp : p = g.seeds i <;> simp [hp])
      (by simp)
      (by simpa using connFrom_singleton (g.seeds i))
      (by
        intro q hq
        simp at hq
        rw [hq]
        exact hstartnone)
    set r := bfsLoop i (boundsFor (g.seeds i) (roomSizeFor g i).1 (roomSizeFor g i).2)
      BFS_FUEL (st.1.set (g.seeds i) ⟨i⟩) [] [g.seeds i] with hrdef
    obtain ⟨⟨extra, hex⟩, r1, r2, r3, r4⟩ := hspec
    have hiMem : ∃ room0, (i, room0) ∈ st.2 := by
      have hmm : i ∈ st.2.map Prod.fst := by
        rw [hkeys]
        exact List.mem_range.mpr hiN
      obtain ⟨ir, hir, hfst⟩ := List.mem_map.mp hmm
      refine ⟨ir.2, ?_⟩
      have hpair : ir = (i, ir.2) := by
        rw [← hfst]
      rw [← hpair]
      exact hir
    obtain ⟨room0, hroom0⟩ := hiMem
    have hr4 : ∀ q ∈ r.2, st.1 q = none := r4
    refine ⟨?_, ?_, ?_, ?_, ?_, ?_, ?_⟩
    · rw [setRoomTiles_mapFst]
      exact hkeys
    · rintro ⟨k, room⟩ hm p hp
      rcases mem_setRoomTiles_cases st.2 i r.2 k room hm with ⟨hmem, hne⟩ | ⟨rfl, room1, hm1, rfl⟩
      · have hold := hsound (k, room) hmem p hp
        rw [r1 p, if_neg]
        · exact hold
        · intro hpr
          rw [hr4 p hpr] at hold
          exact Option.noConfusion hold
      · rw [r1 p, if_pos hp]
    · intro p td htd
      rw [r1 p] at htd
      by_cases hp : p ∈ r.2
      · rw [if_pos hp] at htd
        have htdi : td = ⟨i⟩ := by
          exact (Option.some.injEq .. ▸ htd).symm
        refine ⟨{ room0 with tiles := r.2 }, ?_, hp⟩
        rw [htdi]
        exact mem_setRoomTiles_self st.2 i r.2 room0 hroom0
      · rw [if_neg hp] at htd
        obtain ⟨room1, hm1, hp1⟩ := hcomp p td htd
        by_cases hti : td.roomId = i
        · exfalso
          have : room1.tiles = [] := hfresh i (by simp) room1 (hti ▸ hm1)
          rw [this] at hp1
          exact List.not_mem_nil p hp1
        · exact ⟨room1, mem_setRoomTiles_of_ne st.2 i r.2 td.roomId room1 hm1 hti, hp1⟩
    · rintro ⟨k, room⟩ hm
      rcases mem_setRoomTiles_cases st.2 i r.2 k room hm with ⟨hmem, _⟩ | ⟨rfl, room1, hm1, rfl⟩
      · exact hnodup (k, room) hmem
      · exact r2
    · rintro ⟨k, room⟩ hm
      rcases mem_setRoomTiles_cases st.2 i r.2 k room hm with ⟨hmem, _⟩ | ⟨rfl, room1, hm1, rfl⟩
      · exact hconn (k, room) hmem
      · exact r3
    · intro j hj room hm
      have hji : j ≠ i := fun h => hni (h ▸ hj)
      rcases mem_setRoomTiles_cases st.2 i r.2 j room hm with ⟨hmem, _⟩ | ⟨rfl, _, _, _⟩
      · exact hfresh j (by simp [hj]) room hmem
      · exact absurd rfl hji
    · rintro ⟨k, room⟩ hm
      rcases mem_setRoomTiles_cases st.2 i r.2 k room hm with ⟨hmem, _⟩ | ⟨rfl, room1, hm1, rfl⟩
      · exact hadj (k, room) hmem
      · exact hadj (k, room1) hm1

theorem growFold_inv (g : Gen) :
    ∀ (l : List Nat) (st : TileMap × RoomList),
    GrowInv l st → l.Nodup → (∀ i ∈ l, i < NUM_ROOMS) →
    GrowInv [] (l.foldl (growRoom g) st) := by
  intro l
  induction l with
  | nil => intro st h _ _; exact h
  | cons i rest ih =>
    intro st h hnd hlt
    simp only [List.foldl_cons]
    have hni : i ∉ rest := (List.nodup_cons.mp hnd).1
    exact ih (growRoom g st i)
      (growRoom_inv g i rest st h hni (hlt i (by simp)))
      (List.nodup_cons.mp hnd).2
      (fun j hj => hlt j (by simp [hj]))

theorem growAll_inv (g : Gen) : GrowInv [] (growAll g) := by
  unfold growAll
  apply growFold_inv g (List.range NUM_ROOMS) (TileMap.empty, initRooms g)
  · refine ⟨?_, ?_, ?_, ?_, ?_, ?_, ?_⟩
    · unfold initRooms
      rw [List.map_map]
      exact List.map_id' _
    · rintro ⟨k, room⟩ hm p hp
      unfold initRooms at hm
      obtain ⟨j, _, heq⟩ := List.mem_map.mp hm
      injection heq with h1 h2
      rw [← h2] at hp
      simp at hp
    · intro p td htd
      exact absurd htd (by unfold TileMap.empty; simp)
    · rintro ⟨k, room⟩ hm
      unfold initRooms at hm
      obtain ⟨j, _, heq⟩ := List.mem_map.mp hm
      injection heq with h1 h2
      rw [← h2]
      exact List.nodup_nil
    · rintro ⟨k, room⟩ hm
      unfold initRooms at hm
      obtain ⟨j, _, heq⟩ := List.mem_map.mp hm
      injection heq with h1 h2
      rw [← h2]
      exact connFrom_nil
    · intro j _ room hm
      unfold initRooms at hm
      obtain ⟨j2, _, heq⟩ := List.mem_map.mp hm
      injection heq with h1 h2
      rw [← h2]
    · rintro ⟨k, room⟩ hm
      unfold initRooms at hm
      obtain ⟨j, _, heq⟩ := List.mem_map.mp hm
      injection heq with h1 h2
      rw [← h2]
  · exact List.nodup_range NUM_ROOMS
  · intro i hi
    exact List.mem_range.mp hi

theorem prune_inv (g : Gen) :
    MapInv (growAll g).1 ((growAll g).2.filter (fun ir => ir.2.tiles.length != 0)) := by
  obtain ⟨hkeys, hsound, hcomp, hnodup, hconn, _, hadj⟩ := growAll_inv g
  set st := growAll g
  have hsub : ∀ ir ∈ st.2.filter (fun ir => ir.2.tiles.length != 0), ir ∈ st.2 :=
    fun ir h => List.mem_of_mem_filter h
  refine ⟨?_, ?_, ?_, ?_, ?_, ?_, ?_⟩
  · have : (st.2.filter (fun ir => ir.2.tiles.length != 0)).map Prod.fst |>.Sublist
        (st.2.map Prod.fst) :=
      List.Sublist.map Prod.fst (List.filter_sublist _)
    exact List.Nodup.sublist this (by rw [hkeys]; exact List.nodup_range NUM_ROOMS)
  · exact fun ir h p hp => hsound ir (hsub ir h) p hp
  · intro p td htd
    obtain ⟨room, hm, hp⟩ := hcomp p td htd
    refine ⟨room, List.mem_filter.mpr ⟨hm, ?_⟩, hp⟩
    simp only [bne_iff_ne, ne_eq, decide_not]
    simp only [List.length_eq_zero]
    intro hemp
    rw [hemp] at hp
    exact List.not_mem_nil p hp
  · exact fun ir h => hnodup ir (hsub ir h)
  · exact fun ir h => hconn ir (hsub ir h)
  · intro ir h
    have := (List.mem_filter.mp h).2
    simp only [bne_iff_ne, ne_eq, decide_not] at this
    intro hemp
    rw [hemp] at this
    simp at this
  · exact fun ir h => hadj ir (hsub ir h)

theorem foldl_pres {S A : Type} (f : S → A → S) (P : S → Prop)
    (stable : ∀ s a, P s → P (f s a)) : ∀ (l : List A) (s : S), P s → P (l.foldl f s) := by
  intro l
  induction l with
  | nil => intro s h; exact h
  | cons a t ih => intro s h; exact ih (f s a) (stable s a h)

theorem foldl_est {S A : Type} (f : S → A → S) (P : S → Prop)
    (stable : ∀ s a, P s → P (f s a)) (a0 : A) (est : ∀ s, P (f s a0)) :
    ∀ (l : List A) (s : S), a0 ∈ l → P (l.foldl f s) := by
  intro l
  induction l with
  | nil => intro s h; simp at h
  | cons b t ih =>
    intro s h
    rcases List.mem_cons.mp h with heq | hmem
    · subst heq
      exact foldl_pres f P stable t (f s a0) (est s)
    · exact ih (f s b) hmem

theorem addWallMaybe_walls_sound (tiles : TileMap) (st : WallState)
    (xa ya xb yb : Int) (ed : Edge)
    (hsides : edgeSides ed = (⟨xa, ya⟩, ⟨xb, yb⟩))
    (hP : ∀ e, st.walls e = true → diffAt tiles e) :
    ∀ e, (addWallMaybe tiles st xa ya xb yb ed).walls e = true → diffAt tiles e := by
  intro e
  unfold addWallMaybe
  by_cases hne : roomAt tiles xa ya ≠ roomAt tiles xb yb
  · rw [if_pos hne]
    have hadd : ∀ e2, (st.walls.add ed) e2 = true → diffAt tiles e2 := by
      intro e2
      unfold WallSet.add
      by_cases he2 : e2 = ed
      · subst he2
        intro _
        unfold diffAt
        rw [hsides]
        simpa using hne
      · rw [if_neg he2]
        exact hP e2
    rcases hr1 : roomAt tiles xa ya with _ | r1 <;>
      rcases hr2 : roomAt tiles xb yb with _ | r2 <;>
      simp only [] <;> exact hadd e
  · rw [if_neg hne]
    exact hP e

theorem wallPassTile_walls_sound (tiles : TileMap) (st : WallState) (p : Point)
    (hP : ∀ e, st.walls e = true → diffAt tiles e) :
    ∀ e, (wallPassTile tiles st p).walls e = true → diffAt tiles e := by
  unfold wallPassTile
  apply addWallMaybe_walls_sound
  · show edgeSides ⟨p.x, p.y + 1, Side.N⟩ = _
    unfold edgeSides
    simp only [Prod.mk.injEq, Point.mk.injEq, and_true, true_and]
    omega
  apply addWallMaybe_walls_sound
  · show edgeSides ⟨p.x + 1, p.y, Side.W⟩ = _
    unfold edgeSides
    simp only [Prod.mk.injEq, Point.mk.injEq, and_true, true_and]
    omega
  apply addWallMaybe_walls_sound
  · rfl
  apply addWallMaybe_walls_sound
  · rfl
  exact hP

theorem addWallMaybe_walls_mono (tiles : TileMap) (st : WallState)
    (xa ya xb yb : Int) (ed : Edge) (e : Edge) (h : st.walls e = true) :
    (addWallMaybe tiles st xa ya xb yb ed).walls e = true := by
  unfold addWallMaybe
  by_cases hne : roomAt tiles xa ya ≠ roomAt tiles xb yb
  · rw [if_pos hne]
    rcases roomAt tiles xa ya with _ | r1 <;> rcases roomAt tiles xb yb with _ | r2 <;>
      · show (st.walls.add ed) e = true
        unfold WallSet.add
        by_cases he : e = ed <;> simp [he, h]
  · rw [if_neg hne]
    exact h

theorem addWallMaybe_adds (tiles : TileMap) (st : WallState)
    (xa ya xb yb : Int) (ed : Edge)
    (h : roomAt tiles xa ya ≠ roomAt tiles xb yb) :
    (addWallMaybe tiles st xa ya xb yb ed).walls ed = true := by
  unfold addWallMaybe
  rw [if_pos h]
  rcases roomAt tiles xa ya with _ | r1 <;> rcases roomAt tiles xb yb with _ | r2 <;>
    · show (st.walls.add ed) ed = true
      unfold WallSet.add
      simp

theorem wallPassTile_walls_mono (tiles : TileMap) (st : WallState) (p : Point)
    (e : Edge) (h : st.walls e = true) :
    (wallPassTile tiles st p).walls e = true := by
  unfold wallPassTile
  exact addWallMaybe_walls_mono _ _ _ _ _ _ _ _
    (addWallMaybe_walls_mono _ _ _ _ _ _ _ _
      (addWallMaybe_walls_mono _ _ _ _ _ _ _ _
        (addWallMaybe_walls_mono _ _ _ _ _ _ _ _ h)))

theorem wallPassTile_est (tiles : TileMap) (p : Point) (e : Edge)
    (hedge : p = (edgeSides e).1 ∨ p = (edgeSides e).2)
    (hdiff : diffAt tiles e) :
    ∀ st, (wallPassTile tiles st p).walls e = true := by
  intro st
  rcases e with ⟨ex, ey, es⟩
  cases es
  case W =>
    unfold diffAt edgeSides at hdiff
    simp only [] at hdiff
    rcases hedge with hp | hp
    · -- p is the west side tile: the east-neighbor call (third) adds e
      have hpx : p.x = ex - 1 := by rw [hp]; rfl
      have hpy : p.y = ey := by rw [hp]; rfl
      unfold wallPassTile
      apply addWallMaybe_walls_mono
      have he : (⟨p.x + 1, p.y, Side.W⟩ : Edge) = ⟨ex, ey, Side.W⟩ := by
        simp only [Edge.mk.injEq]
        refine ⟨by omega, by omega, trivial⟩
      rw [he]
      have hc : roomAt tiles p.x p.y ≠ roomAt tiles (p.x + 1) p.y := by
        rw [hpx, hpy]
        have h1 : ex - 1 + 1 = ex := by omega
        rw [h1]
        exact hdiff
      have := addWallMaybe_adds tiles
        (addWallMaybe tiles
          (addWallMaybe tiles st (p.x - 1) p.y p.x p.y ⟨p.x, p.y, Side.W⟩)
          p.x (p.y - 1) p.x p.y ⟨p.x, p.y, Side.N⟩)
        p.x p.y (p.x + 1) p.y ⟨p.x + 1, p.y, Side.W⟩ hc
      rw [he] at this
      exact this
    · -- p is the east side tile: the west-neighbor call (first) adds e
      have hpx : p.x = ex := by rw [hp]; rfl
      have hpy : p.y = ey := by rw [hp]; rfl
      unfold wallPassTile
      apply addWallMaybe_walls_mono
      apply addWallMaybe_walls_mono
      apply addWallMaybe_walls_mono
      have he : (⟨p.x, p.y, Side.W⟩ : Edge) = ⟨ex, ey, Side.W⟩ := by
        simp only [Edge.mk.injEq]
        refine ⟨by omega, by omega, trivial⟩
      rw [he]
      have hc : roomAt tiles (p.x - 1) p.y ≠ roomAt tiles p.x p.y := by
        rw [hpx, hpy]
        exact hdiff
      have := addWallMaybe_adds tiles st (p.x - 1) p.y p.x p.y ⟨p.x, p.y, Side.W⟩ hc
      rw [he] at this
      exact this
  case N =>
    unfold diffAt edgeSides at hdiff
    simp only [] at hdiff
    rcases hedge with hp | hp
    · -- p is the north side tile: the south-neighbor call (fourth) adds e
      have hpx : p.x = ex := by rw [hp]; rfl
      have hpy : p.y = ey - 1 := by rw [hp]; rfl
      unfold wallPassTile
      have he : (⟨p.x, p.y + 1, Side.N⟩ : Edge) = ⟨ex, ey, Side.N⟩ := by
        simp only [Edge.mk.injEq]
        refine ⟨by omega, by omega, trivial⟩
      rw [he]
      have hc : roomAt tiles p.x p.y ≠ roomAt tiles p.x (p.y + 1) := by
        rw [hpx, hpy]
        have h1 : ey - 1 + 1 = ey := by omega
        rw [h1]
        exact hdiff
      have := addWallMaybe_adds tiles
        (addWallMaybe tiles
          (addWallMaybe tiles
            (addWallMaybe tiles st (p.x - 1) p.y p.x p.y ⟨p.x, p.y, Side.W⟩)
            p.x (p.y - 1) p.x p.y ⟨p.x, p.y, Side.N⟩)
          p.x p.y (p.x + 1) p.y ⟨p.x + 1, p.y, Side.W⟩)
        p.x p.y p.x (p.y + 1) ⟨p.x, p.y + 1, Side.N⟩ hc
      rw [he] at this
      exact this
    · -- p is the south side tile: the north-neighbor call (second) adds e
      have hpx : p.x = ex := by rw [hp]; rfl
      have hpy : p.y = ey := by rw [hp]; rfl
      unfold wallPassTile
      apply addWallMaybe_walls_mono
      apply addWallMaybe_walls_mono
      have he : (⟨p.x, p.y, Side.N⟩ : Edge) = ⟨ex, ey, Side.N⟩ := by
        simp only [Edge.mk.injEq]
        refine ⟨by omega, by omega, trivial⟩
      rw [he]
      have hc : roomAt tiles p.x (p.y - 1) ≠ roomAt tiles p.x p.y := by
        rw [hpx, hpy]
        exact hdiff
      have := addWallMaybe_adds tiles
        (addWallMaybe tiles st (p.x - 1) p.y p.x p.y ⟨p.x, p.y, Side.W⟩)
        p.x (p.y - 1) p.x p.y ⟨p.x, p.y, Side.N⟩ hc
      rw [he] at this
      exact this

theorem wallPass_walls_sound (tiles : TileMap) (rooms : RoomList) :
    ∀ e, (wallPass tiles rooms).walls e = true → diffAt tiles e := by
  unfold wallPass
  refine foldl_pres _ (fun st : WallState => ∀ e, st.walls e = true → diffAt tiles e) ?_ rooms _ ?_
  · intro st ir hP
    exact foldl_pres _ _ (fun s p h => wallPassTile_walls_sound tiles s p h) ir.2.tiles st hP
  · intro e h
    unfold WallSet.empty at h
    exact absurd h (by simp)

theorem wallPass_walls_complete (tiles : TileMap) (rooms : RoomList)
    (p : Point) (k : RoomId) (room : Room)
    (hm : (k, room) ∈ rooms) (hp : p ∈ room.tiles) (e : Edge)
    (hedge : p = (edgeSides e).1 ∨ p = (edgeSides e).2)
    (hdiff : diffAt tiles e) :
    (wallPass tiles rooms).walls e = true := by
  unfold wallPass
  refine foldl_est _ (fun st : WallState => st.walls e = true) ?_ (k, room) ?_ rooms _ hm
  · intro s ir h
    exact foldl_pres _ _ (fun s2 q h2 => wallPassTile_walls_mono tiles s2 q e h2) ir.2.tiles s h
  · intro s
    refine foldl_est _ (fun st : WallState => st.walls e = true) ?_ p ?_ room.tiles s hp
    · intro s2 q h2
      exact wallPassTile_walls_mono tiles s2 q e h2
    · intro s2
      exact wallPassTile_est tiles p e hedge hdiff s2

theorem lookup_cons_self {β : Type} (k : PairKey) (v : β) (tl : List (PairKey × β)) :
    ((k, v) :: tl).lookup k = some v := by
  rw [List.lookup]
  rw [beq_self_eq_true]

theorem lookup_cons_ne {β : Type} (k k0 : PairKey) (v0 : β) (tl : List (PairKey × β))
    (h : k ≠ k0) : ((k0, v0) :: tl).lookup k = tl.lookup k := by
  rw [List.lookup]
  have hb : (k == k0) = false := by
    simpa using h
  rw [hb]

theorem any_key_false (mp : DCandMap) (k : PairKey)
    (hex : ¬ (mp.any (fun kv => kv.1 = k)) = true) : ∀ kv ∈ mp, kv.1 ≠ k := by
  intro kv hkv hk
  apply hex
  rw [List.any_eq_true]
  exact ⟨kv, hkv, by simp [hk]⟩

theorem lookup_mem {β : Type} (mp : List (PairKey × β)) (k : PairKey) (v : β)
    (h : mp.lookup k = some v) : (k, v) ∈ mp := by
  induction mp with
  | nil => simp at h
  | cons hd tl ih =>
    obtain ⟨k0, v0⟩ := hd
    by_cases hk : k = k0
    · subst hk
      rw [lookup_cons_self] at h
      injection h with h2
      rw [h2]
      simp
    · rw [lookup_cons_ne k k0 v0 tl hk] at h
      exact List.mem_cons.mpr (Or.inr (ih h))

theorem nodupFst_mem_eq {β : Type} (mp : List (PairKey × β)) (k : PairKey) (v1 v2 : β)
    (hnd : (mp.map Prod.fst).Nodup) (h1 : (k, v1) ∈ mp) (h2 : (k, v2) ∈ mp) : v1 = v2 := by
  induction mp with
  | nil => simp at h1
  | cons hd tl ih =>
    simp only [List.map_cons, List.nodup_cons] at hnd
    rcases List.mem_cons.mp h1 with he1 | hm1 <;> rcases List.mem_cons.mp h2 with he2 | hm2
    · rw [← he1] at he2
      injection he2 with _ hv
      exact hv.symm
    · exfalso
      apply hnd.1
      rw [← he1]
      exact List.mem_map.mpr ⟨(k, v2), hm2, rfl⟩
    · exfalso
      apply hnd.1
      rw [← he2]
      exact List.mem_map.mpr ⟨(k, v1), hm1, rfl⟩
    · exact ih hnd.2 hm1 hm2

theorem dcandSet_mapFst_nodup (mp : DCandMap) (k : PairKey) (v : List DCand)
    (hnd : (mp.map Prod.fst).Nodup) : ((dcandSet mp k v).map Prod.fst).Nodup := by
  unfold dcandSet
  by_cases hex : mp.any (fun kv => kv.1 = k)
  · rw [if_pos hex]
    have heq : (mp.map (fun kv => if kv.1 = k then (k, v) else kv)).map Prod.fst =
        mp.map Prod.fst := by
      rw [List.map_map]
      apply List.map_congr_left
      intro kv _
      by_cases hk : kv.1 = k <;> simp [hk]
    rw [heq]
    exact hnd
  · rw [if_neg hex]
    rw [List.map_append]
    simp only [List.map_cons, List.map_nil]
    rw [List.nodup_append]
    refine ⟨hnd, List.nodup_singleton k, ?_⟩
    intro a ha hb
    simp only [List.mem_singleton] at hb
    subst hb
    obtain ⟨kv, hkv, hfst⟩ := List.mem_map.mp ha
    exact any_key_false _ _ hex kv hkv hfst

theorem mem_dcandSet (mp : DCandMap) (k : PairKey) (v : List DCand)
    (kv : PairKey × List DCand) (hm : kv ∈ dcandSet mp k v) :
    kv = (k, v) ∨ (kv ∈ mp ∧ kv.1 ≠ k) := by
  unfold dcandSet at hm
  by_cases hex : mp.any (fun kv => kv.1 = k)
  · rw [if_pos hex] at hm
    obtain ⟨kv0, hkv0, heq⟩ := List.mem_map.mp hm
    by_cases hk : kv0.1 = k
    · rw [if_pos hk] at heq
      exact Or.inl heq.symm
    · rw [if_neg hk] at heq
      subst heq
      exact Or.inr ⟨hkv0, hk⟩
  · rw [if_neg hex] at hm
    rcases List.mem_append.mp hm with hm | hm
    · exact Or.inr ⟨hm, any_key_false mp k hex kv hm⟩
    · simp only [List.mem_singleton] at hm
      exact Or.inl hm

theorem lookup_mapReplace_self (mp : DCandMap) (k : PairKey) (v : List DCand)
    (hex : ∃ kv ∈ mp, kv.1 = k) :
    (mp.map (fun kv => if kv.1 = k then (k, v) else kv)).lookup k = some v := by
  induction mp with
  | nil => simp at hex
  | cons hd tl ih =>
    obtain ⟨kh, vh⟩ := hd
    simp only [List.map_cons]
    by_cases hhd : kh = k
    · have heq : ((if (kh, vh).1 = k then (k, v) else (kh, vh))) = (k, v) := by
        rw [if_pos hhd]
      rw [heq]
      exact lookup_cons_self k v _
    · have heq : ((if (kh, vh).1 = k then (k, v) else (kh, vh))) = (kh, vh) := by
        rw [if_neg hhd]
      rw [heq]
      rw [lookup_cons_ne k kh vh _ (fun h => hhd h.symm)]
      apply ih
      obtain ⟨kv0, hkv0, hk0⟩ := hex
      rcases List.mem_cons.mp hkv0 with heq2 | hmem
      · exfalso
        apply hhd
        rw [heq2] at hk0
        exact hk0
      · exact ⟨kv0, hmem, hk0⟩

theorem lookup_mapReplace_ne (mp : DCandMap) (k k2 : PairKey) (v : List DCand)
    (h : k2 ≠ k) :
    (mp.map (fun kv => if kv.1 = k then (k, v) else kv)).lookup k2 = mp.lookup k2 := by
  induction mp with
  | nil => simp
  | cons hd tl ih =>
    obtain ⟨kh, vh⟩ := hd
    simp only [List.map_cons]
    by_cases hhd : kh = k
    · have heq : ((if (kh, vh).1 = k then (k, v) else (kh, vh))) = (k, v) := by
        rw [if_pos hhd]
      rw [heq]
      rw [lookup_cons_ne k2 k v _ h, lookup_cons_ne k2 kh vh _ (by rw [hhd]; exact h)]
      exact ih
    · have heq : ((if (kh, vh).1 = k then (k, v) else (kh, vh))) = (kh, vh) := by
        rw [if_neg hhd]
      rw [heq]
      by_cases hk2 : k2 = kh
      · subst hk2
        rw [lookup_cons_self, lookup_cons_self]
      · rw [lookup_cons_ne k2 kh vh _ hk2, lookup_cons_ne k2 kh vh _ hk2]
        exact ih

theorem lookup_append_single_self (mp : DCandMap) (k : PairKey) (v : List DCand)
    (hfresh : ∀ kv ∈ mp, kv.1 ≠ k) :
    (mp ++ [(k, v)]).lookup k = some v := by
  induction mp with
  | nil => simp [lookup_cons_self]
  | cons hd tl ih =>
    obtain ⟨kh, vh⟩ := hd
    rw [List.cons_append]
    rw [lookup_cons_ne k kh vh _ (fun h => hfresh (kh, vh) (by simp) (by rw [← h]))]
    exact ih (fun kv hkv => hfresh kv (by simp [hkv]))

theorem lookup_append_single_ne (mp : DCandMap) (k k2 : PairKey) (v : List DCand)
    (h : k2 ≠ k) : (mp ++ [(k, v)]).lookup k2 = mp.lookup k2 := by
  induction mp with
  | nil => simp [lookup_cons_ne k2 k v [] h]
  | cons hd tl ih =>
    obtain ⟨kh, vh⟩ := hd
    rw [List.cons_append]
    by_cases hk2 : k2 = kh
    · subst hk2
      rw [lookup_cons_self, lookup_cons_self]
    · rw [lookup_cons_ne k2 kh vh _ hk2, lookup_cons_ne k2 kh vh _ hk2]
      exact ih

theorem dcandSet_lookup_self (mp : DCandMap) (k : PairKey) (v : List DCand) :
    (dcandSet mp k v).lookup k = some v := by
  unfold dcandSet
  by_cases hex : mp.any (fun kv => kv.1 = k)
  · rw [if_pos hex]
    rw [List.any_eq_true] at hex
    obtain ⟨kv0, hkv0, hk0⟩ := hex
    exact lookup_mapReplace_self mp k v ⟨kv0, hkv0, by simpa using hk0⟩
  · rw [if_neg hex]
    exact lookup_append_single_self mp k v (any_key_false mp k hex)

theorem dcandSet_lookup_ne (mp : DCandMap) (k k2 : PairKey) (v : List DCand)
    (h : k2 ≠ k) : (dcandSet mp k v).lookup k2 = mp.lookup k2 := by
  unfold dcandSet
  by_cases hex : mp.any (fun kv => kv.1 = k)
  · rw [if_pos hex]
    exact lookup_mapReplace_ne mp k k2 v h
  · rw [if_neg hex]
    exact lookup_append_single_ne mp k k2 v h

theorem addWallMaybe_candInv (tiles : TileMap) (st : WallState)
    (xa ya xb yb : Int) (ed : Edge)
    (hsides : edgeSides ed = (⟨xa, ya⟩, ⟨xb, yb⟩))
    (hinv : CandInv tiles st.cands) :
    CandInv tiles (addWallMaybe tiles st xa ya xb yb ed).cands := by
  unfold addWallMaybe
  by_cases hne : roomAt tiles xa ya ≠ roomAt tiles xb yb
  · rw [if_pos hne]
    rcases h1 : roomAt tiles xa ya with _ | r1 <;> rcases h2 : roomAt tiles xb yb with _ | r2 <;>
      simp only []
    · exact hinv
    · exact hinv
    · exact hinv
    · constructor
      · exact dcandSet_mapFst_nodup _ _ _ hinv.1
      · intro kv hm
        rcases mem_dcandSet _ _ _ kv hm with heq | ⟨hold, _⟩
        · subst heq
          constructor
          · simp
          · intro c hc
            rcases List.mem_append.mp hc with hc | hc
            · rcases hl : st.cands.lookup (min r1 r2, max r1 r2) with _ | v0
              · rw [hl] at hc
                simp at hc
              · rw [hl] at hc
                simp only [Option.getD_some] at hc
                exact (hinv.2 _ (lookup_mem _ _ _ hl)).2 c hc
            · simp only [List.mem_singleton] at hc
              subst hc
              refine ⟨hsides, r1, r2, ?_, ?_, ?_, rfl⟩
              · exact h1
              · exact h2
              · intro hr
                rw [h1, h2, hr] at hne
                exact hne rfl
        · exact hinv.2 kv hold
  · rw [if_neg hne]
    exact hinv

theorem wallPassTile_candInv (tiles : TileMap) (st : WallState) (p : Point)
    (hinv : CandInv tiles st.cands) :
    CandInv tiles (wallPassTile tiles st p).cands := by
  unfold wallPassTile
  apply addWallMaybe_candInv
  · show edgeSides ⟨p.x, p.y + 1, Side.N⟩ = _
    unfold edgeSides
    simp only [Prod.mk.injEq, Point.mk.injEq, and_true, true_and]
    omega
  apply addWallMaybe_candInv
  · show edgeSides ⟨p.x + 1, p.y, Side.W⟩ = _
    unfold edgeSides
    simp only [Prod.mk.injEq, Point.mk.injEq, and_true, true_and]
    omega
  apply addWallMaybe_candInv
  · rfl
  apply addWallMaybe_candInv
  · rfl
  exact hinv

theorem wallPass_candInv (tiles : TileMap) (rooms : RoomList) :
    CandInv tiles (wallPass tiles rooms).cands := by
  unfold wallPass
  refine foldl_pres _ (fun st : WallState => CandInv tiles st.cands) ?_ rooms _ ?_
  · intro st ir hP
    exact foldl_pres _ _ (fun s q h => wallPassTile_candInv tiles s q h) ir.2.tiles st hP
  · exact ⟨by simp, by simp⟩

theorem addWallMaybe_cand_mono (tiles : TileMap) (st : WallState)
    (xa ya xb yb : Int) (ed : Edge) (k : PairKey)
    (h : (st.cands.lookup k).isSome = true) :
    ((addWallMaybe tiles st xa ya xb yb ed).cands.lookup k).isSome = true := by
  unfold addWallMaybe
  by_cases hne : roomAt tiles xa ya ≠ roomAt tiles xb yb
  · rw [if_pos hne]
    rcases h1 : roomAt tiles xa ya with _ | r1 <;> rcases h2 : roomAt tiles xb yb with _ | r2 <;>
      simp only []
    · exact h
    · exact h
    · exact h
    · by_cases hk : k = (min r1 r2, max r1 r2)
      · subst hk
        rw [dcandSet_lookup_self]
        rfl
      · rw [dcandSet_lookup_ne _ _ _ _ hk]
        exact h
  · rw [if_neg hne]
    exact h

theorem addWallMaybe_cand_adds (tiles : TileMap) (st : WallState)
    (xa ya xb yb : Int) (ed : Edge) (r1 r2 : RoomId)
    (h1 : roomAt tiles xa ya = some r1) (h2 : roomAt tiles xb yb = some r2)
    (hne : r1 ≠ r2) :
    ((addWallMaybe tiles st xa ya xb yb ed).cands.lookup (min r1 r2, max r1 r2)).isSome
      = true := by
  unfold addWallMaybe
  rw [if_pos (by rw [h1, h2]; simpa using hne)]
  simp only [h1, h2]
  rw [dcandSet_lookup_self]
  rfl

theorem wallPassTile_estQ (tiles : TileMap) (p : Point) (Q : WallState → Prop)
    (mono : ∀ (s : WallState) (xa ya xb yb : Int) (ed : Edge),
      Q s → Q (addWallMaybe tiles s xa ya xb yb ed))
    (hcall :
      (∀ s, Q (addWallMaybe tiles s (p.x - 1) p.y p.x p.y ⟨p.x, p.y, Side.W⟩)) ∨
      (∀ s, Q (addWallMaybe tiles s p.x (p.y - 1) p.x p.y ⟨p.x, p.y, Side.N⟩)) ∨
      (∀ s, Q (addWallMaybe tiles s p.x p.y (p.x + 1) p.y ⟨p.x + 1, p.y, Side.W⟩)) ∨
      (∀ s, Q (addWallMaybe tiles s p.x p.y p.x (p.y + 1) ⟨p.x, p.y + 1, Side.N⟩))) :
    ∀ st, Q (wallPassTile tiles st p) := by
  intro st
  unfold wallPassTile
  rcases hcall with h | h | h | h
  · exact mono _ _ _ _ _ _ (mono _ _ _ _ _ _ (mono _ _ _ _ _ _ (h st)))
  · exact mono _ _ _ _ _ _ (mono _ _ _ _ _ _ (h _))
  · exact mono _ _ _ _ _ _ (h _)
  · exact h _

theorem wallPassTile_cand_est (tiles : TileMap) (p : Point) (e : Edge) (r1 r2 : RoomId)
    (hedge : p = (edgeSides e).1 ∨ p = (edgeSides e).2)
    (h1 : roomAt tiles (edgeSides e).1.x (edgeSides e).1.y = some r1)
    (h2 : roomAt tiles (edgeSides e).2.x (edgeSides e).2.y = some r2)
    (hne : r1 ≠ r2) :
    ∀ st, (((wallPassTile tiles st p).cands).lookup (min r1 r2, max r1 r2)).isSome = true := by
  apply wallPassTile_estQ tiles p
    (fun st => ((st.cands.lookup (min r1 r2, max r1 r2))).isSome = true)
    (fun s xa ya xb yb ed h => addWallMaybe_cand_mono tiles s xa ya xb yb ed _ h)
  rcases e with ⟨ex, ey, es⟩
  cases es
  case W =>
    simp only [edgeSides] at h1 h2 hedge
    rcases hedge with hp | hp
    · refine Or.inr (Or.inr (Or.inl ?_))
      intro s
      have hpx : p.x = ex - 1 := by rw [hp]
      have hpy : p.y = ey := by rw [hp]
      refine addWallMaybe_cand_adds tiles s p.x p.y (p.x + 1) p.y _ r1 r2 ?_ ?_ hne
      · rw [hpx, hpy]
        exact h1
      · rw [hpx, hpy]
        have hx : ex - 1 + 1 = ex := by omega
        rw [hx]
        exact h2
    · refine Or.inl ?_
      intro s
      have hpx : p.x = ex := by rw [hp]
      have hpy : p.y = ey := by rw [hp]
      refine addWallMaybe_cand_adds tiles s (p.x - 1) p.y p.x p.y _ r1 r2 ?_ ?_ hne
      · rw [hpx, hpy]
        exact h1
      · rw [hpx, hpy]
        exact h2
  case N =>
    simp only [edgeSides] at h1 h2 hedge
    rcases hedge with hp | hp
    · refine Or.inr (Or.inr (Or.inr ?_))
      intro s
      have hpx : p.x = ex := by rw [hp]
      have hpy : p.y = ey - 1 := by rw [hp]
      refine addWallMaybe_cand_adds tiles s p.x p.y p.x (p.y + 1) _ r1 r2 ?_ ?_ hne
      · rw [hpx, hpy]
        exact h1
      · rw [hpx, hpy]
        have hy : ey - 1 + 1 = ey := by omega
        rw [hy]
        exact h2
    · refine Or.inr (Or.inl ?_)
      intro s
      have hpx : p.x = ex := by rw [hp]
      have hpy : p.y = ey := by rw [hp]
      refine addWallMaybe_cand_adds tiles s p.x (p.y - 1) p.x p.y _ r1 r2 ?_ ?_ hne
      · rw [hpx, hpy]
        exact h1
      · rw [hpx, hpy]
        exact h2

theorem wallPassTile_cand_mono (tiles : TileMap) (st : WallState) (p : Point)
    (k : PairKey) (h : (st.cands.lookup k).isSome = true) :
    ((wallPassTile tiles st p).cands.lookup k).isSome = true := by
  unfold wallPassTile
  exact addWallMaybe_cand_mono _ _ _ _ _ _ _ _
    (addWallMaybe_cand_mono _ _ _ _ _ _ _ _
      (addWallMaybe_cand_mono _ _ _ _ _ _ _ _
        (addWallMaybe_cand_mono _ _ _ _ _ _ _ _ h)))

theorem wallPass_cand_est (tiles : TileMap) (rooms : RoomList)
    (p : Point) (k : RoomId) (room : Room)
    (hm : (k, room) ∈ rooms) (hp : p ∈ room.tiles) (e : Edge) (r1 r2 : RoomId)
    (hedge : p = (edgeSides e).1 ∨ p = (edgeSides e).2)
    (h1 : roomAt tiles (edgeSides e).1.x (edgeSides e).1.y = some r1)
    (h2 : roomAt tiles (edgeSides e).2.x (edgeSides e).2.y = some r2)
    (hne : r1 ≠ r2) :
    (((wallPass tiles rooms).cands).lookup (min r1 r2, max r1 r2)).isSome = true := by
  unfold wallPass
  refine foldl_est _
    (fun st : WallState => ((st.cands.lookup (min r1 r2, max r1 r2))).isSome = true) ?_
    (k, room) ?_ rooms _ hm
  · intro s ir h
    exact foldl_pres _ _ (fun s2 q h2b => wallPassTile_cand_mono tiles s2 q _ h2b)
      ir.2.tiles s h
  · intro s
    refine foldl_est _
      (fun st : WallState => ((st.cands.lookup (min r1 r2, max r1 r2))).isSome = true) ?_
      p ?_ room.tiles s hp
    · intro s2 q h2b
      exact wallPassTile_cand_mono tiles s2 q _ h2b
    · intro s2
      exact wallPassTile_cand_est tiles p e r1 r2 hedge h1 h2 hne s2

theorem foldl_pres_mem {S A : Type} (f : S → A → S) (P : S → Prop) :
    ∀ (l : List A), (∀ s a, a ∈ l → P s → P (f s a)) → ∀ s, P s → P (l.foldl f s) := by
  intro l
  induction l with
  | nil => intro _ s h; exact h
  | cons b t ih =>
    intro hst s h
    exact ih (fun s2 a ha => hst s2 a (by simp [ha])) (f s b) (hst s b (by simp) h)

theorem foldl_inv_est {S A : Type} (f : S → A → S) (Inv P : S → Prop) :
    ∀ (l : List A),
    (∀ s a, a ∈ l → Inv s → Inv (f s a)) →
    (∀ s a, a ∈ l → P s → P (f s a)) →
    ∀ (a0 : A), (∀ s, Inv s → P (f s a0)) →
    ∀ s, a0 ∈ l → Inv s → P (l.foldl f s) := by
  intro l
  induction l with
  | nil => intro _ _ a0 _ s h; simp at h
  | cons b t ih =>
    intro hInv hStable a0 hEst s hmem hs
    rcases List.mem_cons.mp hmem with heq | hmem2
    · subst heq
      exact foldl_pres_mem f P t (fun s2 a ha => hStable s2 a (by simp [ha])) (f s a0)
        (hEst s hs)
    · exact ih (fun s2 a ha => hInv s2 a (by simp [ha]))
        (fun s2 a ha => hStable s2 a (by simp [ha])) a0 hEst (f s b) hmem2
        (hInv s b (by simp) hs)

theorem pushAdjacent_tilesMap (rooms : RoomList) (r : RoomId) (en : RoomId × Edge) :
    (pushAdjacent rooms r en).map (fun ir => (ir.1, ir.2.tiles)) =
    rooms.map (fun ir => (ir.1, ir.2.tiles)) := by
  unfold pushAdjacent
  rw [List.map_map]
  apply List.map_congr_left
  intro ir _
  by_cases h : ir.1 = r <;> simp [h]

theorem pushAdjacent_adjHas_mono (rooms : RoomList) (r r2 : RoomId)
    (en en2 : RoomId × Edge) (h : adjHas rooms r2 en2) :
    adjHas (pushAdjacent rooms r en) r2 en2 := by
  obtain ⟨room, hm, hin⟩ := h
  unfold pushAdjacent
  by_cases hr : r2 = r
  · subst hr
    refine ⟨{ room with adjacent := room.adjacent ++ [en] }, ?_, by simp [hin]⟩
    refine List.mem_map.mpr ⟨(r2, room), hm, ?_⟩
    rw [if_pos rfl]
  · refine ⟨room, ?_, hin⟩
    refine List.mem_map.mpr ⟨(r2, room), hm, ?_⟩
    rw [if_neg hr]

theorem pushAdjacent_adds (rooms : RoomList) (r : RoomId) (room0 : Room)
    (en : RoomId × Edge) (h : (r, room0) ∈ rooms) :
    adjHas (pushAdjacent rooms r en) r en := by
  unfold pushAdjacent
  refine ⟨{ room0 with adjacent := room0.adjacent ++ [en] }, ?_, by simp⟩
  refine List.mem_map.mpr ⟨(r, room0), h, ?_⟩
  rw [if_pos rfl]

theorem doorPassStep_shape (g : Gen) (tiles : TileMap) (rooms1 : RoomList)
    (st : DoorPhase) (kv : PairKey × List DCand) (h : RoomsShape rooms1 st) :
    RoomsShape rooms1 (doorPassStep g tiles st kv) := by
  unfold doorPassStep
  rcases hch : kv.2.get? (g.doorPick kv.1.1 kv.1.2 % kv.2.length) with _ | c
  · exact h
  · obtain ⟨t1, t2, ed⟩ := c
    simp only []
    rcases h1 : roomAt tiles t1.x t1.y with _ | r1 <;>
      rcases h2 : roomAt tiles t2.x t2.y with _ | r2 <;> simp only []
    · exact h
    · exact h
    · exact h
    · unfold RoomsShape at h ⊢
      simp only []
      rw [pushAdjacent_tilesMap, pushAdjacent_tilesMap]
      exact h

theorem doorPassStep_doorsOK (g : Gen) (tiles : TileMap) (cands0 : DCandMap)
    (st : DoorPhase) (kv : PairKey × List DCand) (hkv : kv ∈ cands0)
    (h : DoorsOK g cands0 st) : DoorsOK g cands0 (doorPassStep g tiles st kv) := by
  unfold doorPassStep
  rcases hch : kv.2.get? (g.doorPick kv.1.1 kv.1.2 % kv.2.length) with _ | c
  · exact h
  · obtain ⟨t1, t2, ed⟩ := c
    simp only []
    rcases h1 : roomAt tiles t1.x t1.y with _ | r1 <;>
      rcases h2 : roomAt tiles t2.x t2.y with _ | r2 <;> simp only []
    · exact h
    · exact h
    · exact h
    · intro e d hd
      simp only [DoorMap.set] at hd
      by_cases he : e = ed
      · subst he
        rw [if_pos rfl] at hd
        injection hd with hd2
        refine ⟨kv, hkv, ?_, ?_⟩
        · rw [← hd2]
          unfold chosenFor
          exact hch
        · rw [← hd2]
      · rw [if_neg he] at hd
        exact h e d hd

theorem doorPass_wallsLe (g : Gen) (tiles : TileMap) (cands0 : DCandMap)
    (st : DoorPhase) (kv : PairKey × List DCand) (ws0 : WallSet)
    (h : ∀ e, st.walls e = true → ws0 e = true) :
    ∀ e, (doorPassStep g tiles st kv).walls e = true → ws0 e = true := by
  unfold doorPassStep
  rcases hch : kv.2.get? (g.doorPick kv.1.1 kv.1.2 % kv.2.length) with _ | c
  · exact h
  · obtain ⟨t1, t2, ed⟩ := c
    simp only []
    rcases h1 : roomAt tiles t1.x t1.y with _ | r1 <;>
      rcases h2 : roomAt tiles t2.x t2.y with _ | r2 <;> simp only []
    · exact h
    · exact h
    · exact h
    · intro e he
      simp only [WallSet.remove] at he
      by_cases hee : e = ed
      · rw [if_pos hee] at he
        exact absurd he (by simp)
      · rw [if_neg hee] at he
        exact h e he

theorem doorPass_wallsCover (g : Gen) (tiles : TileMap) (cands0 : DCandMap)
    (st : DoorPhase) (kv : PairKey × List DCand) (ws0 : WallSet)
    (h : ∀ e, ws0 e = true → st.walls e = true ∨ (st.doors e).isSome = true) :
    ∀ e, ws0 e = true →
      (doorPassStep g tiles st kv).walls e = true ∨
      ((doorPassStep g tiles st kv).doors e).isSome = true := by
  unfold doorPassStep
  rcases hch : kv.2.get? (g.doorPick kv.1.1 kv.1.2 % kv.2.length) with _ | c
  · exact h
  · obtain ⟨t1, t2, ed⟩ := c
    simp only []
    rcases h1 : roomAt tiles t1.x t1.y with _ | r1 <;>
      rcases h2 : roomAt tiles t2.x t2.y with _ | r2 <;> simp only []
    · exact h
    · exact h
    · exact h
    · intro e he
      simp only [WallSet.remove, DoorMap.set]
      by_cases hee : e = ed
      · right
        rw [if_pos hee]
        rfl
      · rw [if_neg hee, if_neg hee]
        exact h e he

theorem shape_key_mem (rooms1 : RoomList) (st : DoorPhase) (h : RoomsShape rooms1 st)
    (r : RoomId) (room1 : Room) (hm : (r, room1) ∈ rooms1) :
    ∃ room, (r, room) ∈ st.rooms := by
  have hfsts : st.rooms.map Prod.fst = rooms1.map Prod.fst := by
    have h2 := congrArg (List.map Prod.fst) h
    simpa [List.map_map, Function.comp] using h2
  have hr : r ∈ st.rooms.map Prod.fst := by
    rw [hfsts]
    exact List.mem_map.mpr ⟨(r, room1), hm, rfl⟩
  obtain ⟨ir, hir, hfst⟩ := List.mem_map.mp hr
  refine ⟨ir.2, ?_⟩
  have hpair : ir = (r, ir.2) := by
    rw [← hfst]
  rw [← hpair]
  exact hir

theorem pushAdjacent_key_mem (rooms : RoomList) (r : RoomId) (en : RoomId × Edge)
    (r2 : RoomId) (room : Room) (h : (r2, room) ∈ rooms) :
    ∃ room2, (r2, room2) ∈ pushAdjacent rooms r en := by
  unfold pushAdjacent
  by_cases hr : r2 = r
  · subst hr
    exact ⟨_, List.mem_map.mpr ⟨(r2, room), h, by rw [if_pos rfl]⟩⟩
  · exact ⟨room, List.mem_map.mpr ⟨(r2, room), h, by rw [if_neg hr]⟩⟩

theorem doorPassStep_placed_stable (g : Gen) (tiles : TileMap) (cands0 : DCandMap)
    (hcinv : CandInv tiles cands0)
    (kv : PairKey × List DCand) (hkv : kv ∈ cands0)
    (st : DoorPhase) (kv2 : PairKey × List DCand) (hkv2 : kv2 ∈ cands0)
    (h : DoorPlaced g tiles kv st) :
    DoorPlaced g tiles kv (doorPassStep g tiles st kv2) := by
  unfold doorPassStep
  rcases hch2 : kv2.2.get? (g.doorPick kv2.1.1 kv2.1.2 % kv2.2.length) with _ | c2
  · exact h
  · obtain ⟨t1b, t2b, ed2⟩ := c2
    simp only []
    rcases hb1 : roomAt tiles t1b.x t1b.y with _ | rb1 <;>
      rcases hb2 : roomAt tiles t2b.x t2b.y with _ | rb2 <;> simp only []
    · exact h
    · exact h
    · exact h
    · intro t1 t2 ed hch r1 r2 h1 h2
      obtain ⟨hdoor, ha1, ha2⟩ := h t1 t2 ed hch r1 r2 h1 h2
      refine ⟨?_, ?_, ?_⟩
      · simp only [DoorMap.set]
        by_cases hee : ed = ed2
        · subst hee
          rw [if_pos rfl]
          -- the two candidates carry the same edge, hence the same tiles
          have hc : (t1, t2, ed) ∈ kv.2 := by
            unfold chosenFor at hch
            exact List.get?_mem hch
          have hc2 : (t1b, t2b, ed) ∈ kv2.2 := by
            exact List.get?_mem hch2
          have hok := (hcinv.2 kv hkv).2 _ hc
          have hok2 := (hcinv.2 kv2 hkv2).2 _ hc2
          obtain ⟨hs1, _⟩ := hok
          obtain ⟨hs2, _⟩ := hok2
          simp only [] at hs1 hs2
          rw [hs1] at hs2
          injection hs2 with ha hb
          rw [ha, hb]
        · rw [if_neg hee]
          exact hdoor
      · exact pushAdjacent_adjHas_mono _ _ _ _ _ (pushAdjacent_adjHas_mono _ _ _ _ _ ha1)
      · exact pushAdjacent_adjHas_mono _ _ _ _ _ (pushAdjacent_adjHas_mono _ _ _ _ _ ha2)

theorem doorPassStep_placed_est (g : Gen) (tiles : TileMap) (rooms1 : RoomList)
    (hcomp : ∀ p td, tiles p = some td → ∃ room, (td.roomId, room) ∈ rooms1 ∧ p ∈ room.tiles)
    (kv : PairKey × List DCand) :
    ∀ st, RoomsShape rooms1 st → DoorPlaced g tiles kv (doorPassStep g tiles st kv) := by
  intro st hshape
  intro t1 t2 ed hch r1 r2 h1 h2
  unfold doorPassStep
  unfold chosenFor at hch
  rw [hch]
  simp only [h1, h2]
  refine ⟨?_, ?_, ?_⟩
  · simp [DoorMap.set]
  · -- r1 is the room id of tile t1, so it is a key of the room list
    have hr1 : ∃ room, (r1, room) ∈ st.rooms := by
      unfold roomAt at h1
      rcases htd : tiles ⟨t1.x, t1.y⟩ with _ | td
      · rw [TileMap.get, htd] at h1
        simp at h1
      · rw [TileMap.get, htd] at h1
        simp only [Option.map_some'] at h1
        injection h1 with h1b
        obtain ⟨room, hm, _⟩ := hcomp _ td htd
        rw [h1b] at hm
        exact shape_key_mem rooms1 st hshape r1 room hm
    obtain ⟨room1, hm1⟩ := hr1
    exact pushAdjacent_adjHas_mono _ _ _ _ _ (pushAdjacent_adds _ _ _ _ hm1)
  · have hr2 : ∃ room, (r2, room) ∈ st.rooms := by
      unfold roomAt at h2
      rcases htd : tiles ⟨t2.x, t2.y⟩ with _ | td
      · rw [TileMap.get, htd] at h2
        simp at h2
      · rw [TileMap.get, htd] at h2
        simp only [Option.map_some'] at h2
        injection h2 with h2b
        obtain ⟨room, hm, _⟩ := hcomp _ td htd
        rw [h2b] at hm
        exact shape_key_mem rooms1 st hshape r2 room hm
    obtain ⟨room2, hm2⟩ := hr2
    obtain ⟨room2b, hm2b⟩ := pushAdjacent_key_mem st.rooms r1 (r2, ed) r2 room2 hm2
    exact pushAdjacent_adds _ _ _ _ hm2b

theorem lookup_of_mem_nodup {α β : Type} [BEq α] [LawfulBEq α]
    (mp : List (α × β)) (k : α) (v : β)
    (hnd : (mp.map Prod.fst).Nodup) (hm : (k, v) ∈ mp) : mp.lookup k = some v := by
  induction mp with
  | nil => simp at hm
  | cons hd tl ih =>
    obtain ⟨k0, v0⟩ := hd
    simp only [List.map_cons, List.nodup_cons] at hnd
    rcases List.mem_cons.mp hm with heq | hmem
    · injection heq with ha hb
      subst ha
      subst hb
      rw [List.lookup]
      simp
    · have hk : k ≠ k0 := by
        intro h
        subst h
        exact hnd.1 (List.mem_map.mpr ⟨(k, v), hmem, rfl⟩)
      rw [List.lookup]
      have hb : (k == k0) = false := by simpa using hk
      rw [hb]
      exact ih hnd.2 hmem

theorem minmax_pair_eq (a b c d : Nat) (h : (min a b, max a b) = (min c d, max c d)) :
    (a = c ∧ b = d) ∨ (a = d ∧ b = c) := by
  injection h with h1 h2
  omega

theorem shape_tiles_mem (rooms1 : RoomList) (st : DoorPhase) (h : RoomsShape rooms1 st)
    (i : RoomId) (room : Room) (hm : (i, room) ∈ st.rooms) :
    ∃ room0, (i, room0) ∈ rooms1 ∧ room.tiles = room0.tiles := by
  have hmem : (i, room.tiles) ∈ st.rooms.map (fun ir => (ir.1, ir.2.tiles)) :=
    List.mem_map.mpr ⟨(i, room), hm, rfl⟩
  rw [h] at hmem
  obtain ⟨ir0, h0, heq⟩ := List.mem_map.mp hmem
  injection heq with ha hb
  refine ⟨ir0.2, ?_, hb.symm⟩
  have hp : ir0 = (i, ir0.2) := by
    rw [← ha]
  rw [← hp]
  exact h0

theorem doorStage_shape (g : Gen) : RoomsShape (prunedRooms g) (doorStage g) := by
  unfold doorStage
  refine foldl_pres _ (RoomsShape (prunedRooms g)) ?_ _ _ rfl
  intro st kv h
  exact doorPassStep_shape g (growAll g).1 (prunedRooms g) st kv h

theorem doorStage_doorsOK (g : Gen) : DoorsOK g (wallStage g).cands (doorStage g) := by
  unfold doorStage
  refine foldl_pres_mem _ (DoorsOK g (wallStage g).cands) _ ?_ _ ?_
  · intro st kv hkv h
    exact doorPassStep_doorsOK g (growAll g).1 (wallStage g).cands st kv hkv h
  · intro e d hd
    exact absurd hd (by simp [DoorMap.empty])

theorem doorStage_wallsLe (g : Gen) :
    ∀ e, (doorStage g).walls e = true → (wallStage g).walls e = true := by
  unfold doorStage
  refine foldl_pres _
    (fun st : DoorPhase => ∀ e, st.walls e = true → (wallStage g).walls e = true) ?_ _ _
    (fun e h => h)
  intro st kv h
  exact doorPass_wallsLe g (growAll g).1 (wallStage g).cands st kv (wallStage g).walls h

theorem doorStage_wallsCover (g : Gen) :
    ∀ e, (wallStage g).walls e = true →
      (doorStage g).walls e = true ∨ ((doorStage g).doors e).isSome = true := by
  unfold doorStage
  refine foldl_pres _
    (fun st : DoorPhase => ∀ e, (wallStage g).walls e = true →
      st.walls e = true ∨ (st.doors e).isSome = true) ?_ _ _
    (fun e h => Or.inl h)
  intro st kv h
  exact doorPass_wallsCover g (growAll g).1 (wallStage g).cands st kv (wallStage g).walls h

theorem prunedRooms_inv (g : Gen) : MapInv (growAll g).1 (prunedRooms g) :=
  prune_inv g

theorem doorStage_placed (g : Gen) (kv : PairKey × List DCand)
    (hkv : kv ∈ (wallStage g).cands) :
    DoorPlaced g (growAll g).1 kv (doorStage g) := by
  unfold doorStage
  refine foldl_inv_est _ (RoomsShape (prunedRooms g)) (DoorPlaced g (growAll g).1 kv) _
    ?_ ?_ kv ?_ _ hkv rfl
  · intro s a _ h
    exact doorPassStep_shape g (growAll g).1 (prunedRooms g) s a h
  · intro s a ha h
    exact doorPassStep_placed_stable g (growAll g).1 (wallStage g).cands
      (wallPass_candInv (growAll g).1 (prunedRooms g)) kv hkv s a ha h
  · intro s hs
    exact doorPassStep_placed_est g (growAll g).1 (prunedRooms g)
      (prunedRooms_inv g).complete kv s hs

theorem roomAt_some_tile (tiles : TileMap) (p : Point) (r : RoomId)
    (h : roomAt tiles p.x p.y = some r) : tiles p = some ⟨r⟩ := by
  unfold roomAt at h
  rcases htd : tiles ⟨p.x, p.y⟩ with _ | td
  · rw [TileMap.get, htd] at h
    simp at h
  · rw [TileMap.get, htd] at h
    simp only [Option.map_some'] at h
    injection h with hr
    have : td = ⟨r⟩ := by
      rcases td with ⟨ri⟩
      rw [← hr]
    rw [← this]

/-- C6: after level generation, every room's tile list is duplicate-free
and non-empty (zero-tile rooms are discarded), every listed tile maps to
exactly that room id in the tile map, and the tile lists of distinct rooms
are pairwise disjoint — no tile key maps to more than one room id. -/
theorem C6_tile_uniqueness (g : Gen) (lvl : Int) :
    (∀ ir ∈ (createGameMap g lvl).rooms,
       (Prod.snd ir).tiles.Nodup ∧ (Prod.snd ir).tiles ≠ [] ∧
       ∀ p ∈ (Prod.snd ir).tiles, (createGameMap g lvl).tiles.get p = some ⟨ir.1⟩) ∧
    (∀ i ri j rj, (i, ri) ∈ (createGameMap g lvl).rooms →
       (j, rj) ∈ (createGameMap g lvl).rooms → i ≠ j →
       ∀ p, p ∈ ri.tiles → p ∉ rj.tiles) := by
  have hshape := doorStage_shape g
  have hinv := prunedRooms_inv g
  have hrooms : (createGameMap g lvl).rooms = (doorStage g).rooms := rfl
  have htiles : ∀ p, (createGameMap g lvl).tiles.get p = (growAll g).1 p := fun _ => rfl
  constructor
  · rintro ⟨i, room⟩ hm
    rw [hrooms] at hm
    obtain ⟨room0, hm0, hteq⟩ := shape_tiles_mem _ _ hshape i room hm
    simp only []
    rw [hteq]
    refine ⟨hinv.nodup (i, room0) hm0, hinv.nonempty (i, room0) hm0, ?_⟩
    intro p hp
    rw [htiles p]
    exact hinv.sound (i, room0) hm0 p hp
  · intro i ri j rj hmi hmj hij p hpi hpj
    rw [hrooms] at hmi hmj
    obtain ⟨ri0, hmi0, hti⟩ := shape_tiles_mem _ _ hshape i ri hmi
    obtain ⟨rj0, hmj0, htj⟩ := shape_tiles_mem _ _ hshape j rj hmj
    rw [hti] at hpi
    rw [htj] at hpj
    have h1 := hinv.sound (i, ri0) hmi0 p hpi
    have h2 := hinv.sound (j, rj0) hmj0 p hpj
    rw [h1] at h2
    injection h2 with h3
    injection h3 with h4
    exact hij h4

/-- C7 as amended: every claimed tile other than the seed (the head of the
room's tile list) is 8-directionally adjacent to an earlier-claimed tile of
the same room — the growth loop expands through `DIRS_8`, so rooms are
8-connected but, as the counterexample shows, not always 4-connected. -/
theorem C7_rooms_eight_connected (g : Gen) (lvl : Int) :
    ∀ ir ∈ (createGameMap g lvl).rooms, connFrom (Prod.snd ir).tiles := by
  have hshape := doorStage_shape g
  have hinv := prunedRooms_inv g
  rintro ⟨i, room⟩ hm
  obtain ⟨room0, hm0, hteq⟩ := shape_tiles_mem _ _ hshape i room hm
  simp only []
  rw [hteq]
  exact hinv.conn (i, room0) hm0

/-- C4: for every generated map and canonical edge, a Wall or door edge
separates tiles whose room ids differ (`none` for roomless counts as a
distinct value, and at least one side of any wall is roomed), while an
absent edge (neither wall nor door) separates tiles of the same room
unless at least one side belongs to no room. -/
theorem C4_wall_room_consistency (g : Gen) (lvl : Int) (e : Edge) :
    ((createGameMap g lvl).walls.has e = true ∨
       (((createGameMap g lvl).doors.get e).isSome = true) →
      roomAt (createGameMap g lvl).tiles (edgeSides e).1.x (edgeSides e).1.y ≠
      roomAt (createGameMap g lvl).tiles (edgeSides e).2.x (edgeSides e).2.y) ∧
    ((createGameMap g lvl).walls.has e = false ∧ (createGameMap g lvl).doors.get e = none →
      roomAt (createGameMap g lvl).tiles (edgeSides e).1.x (edgeSides e).1.y =
        roomAt (createGameMap g lvl).tiles (edgeSides e).2.x (edgeSides e).2.y ∨
      roomAt (createGameMap g lvl).tiles (edgeSides e).1.x (edgeSides e).1.y = none ∨
      roomAt (createGameMap g lvl).tiles (edgeSides e).2.x (edgeSides e).2.y = none) := by
  have htiles : (createGameMap g lvl).tiles = (growAll g).1 := rfl
  have hwalls : (createGameMap g lvl).walls = (doorStage g).walls := rfl
  have hdoors : (createGameMap g lvl).doors = (doorStage g).doors := rfl
  have hws : wallStage g = wallPass (growAll g).1 (prunedRooms g) := rfl
  constructor
  · intro h
    rw [htiles]
    rcases h with h | h
    · rw [hwalls] at h
      have h2 := doorStage_wallsLe g e (by exact h)
      rw [hws] at h2
      exact wallPass_walls_sound (growAll g).1 (prunedRooms g) e h2
    · rw [hdoors] at h
      rcases hd : (doorStage g).doors e with _ | d
      · rw [DoorMap.get, hd] at h
        simp at h
      · obtain ⟨kv, hkv, hch, _⟩ := doorStage_doorsOK g e d hd
        have hc : (d.tile1, d.tile2, e) ∈ kv.2 := by
          unfold chosenFor at hch
          exact List.get?_mem hch
        obtain ⟨hs, ra, rb, hA, hB, hab, _⟩ :=
          (wallPass_candInv (growAll g).1 (prunedRooms g)).2 kv hkv |>.2 _ hc
        simp only [] at hs hA hB
        have h1 : (edgeSides e).1 = d.tile1 := by rw [hs]
        have h2 : (edgeSides e).2 = d.tile2 := by rw [hs]
        rw [h1, h2, hA, hB]
        intro hcon
        injection hcon with hcon2
        exact hab hcon2
  · rintro ⟨hw, hd⟩
    rw [htiles]
    rcases hA : roomAt (growAll g).1 (edgeSides e).1.x (edgeSides e).1.y with _ | r1
    · exact Or.inr (Or.inl rfl)
    · rcases hB : roomAt (growAll g).1 (edgeSides e).2.x (edgeSides e).2.y with _ | r2
      · exact Or.inr (Or.inr rfl)
      · by_cases hr : r1 = r2
        · exact Or.inl (by rw [hr])
        · exfalso
          have hinv := prunedRooms_inv g
          have htile1 : (growAll g).1 (edgeSides e).1 = some ⟨r1⟩ :=
            roomAt_some_tile _ _ _ hA
          obtain ⟨room, hm, hp⟩ := hinv.complete _ _ htile1
          have hwall := wallPass_walls_complete (growAll g).1 (prunedRooms g)
            (edgeSides e).1 r1 room hm hp e (Or.inl rfl)
            (by
              unfold diffAt
              rw [hA, hB]
              intro hcon
              injection hcon with hcon2
              exact hr hcon2)
          rcases doorStage_wallsCover g e hwall with hc | hc
          · rw [hwalls] at hw
            rw [WallSet.has] at hw
            rw [hw] at hc
            exact Bool.noConfusion hc
          · rw [hdoors] at hd
            rw [DoorMap.get] at hd
            rw [hd] at hc
            simp at hc

set_option maxHeartbeats 2000000 in

/-- C5: for every unordered pair of distinct rooms with at least one
door-candidate edge (an edge whose two sides lie in the two rooms), exactly
one door exists between the pair, and every door edge is registered
symmetrically: each of its two rooms' adjacency lists names the other room
with the same edge, and the door starts closed. -/
theorem C5_door_per_pair (g : Gen) (lvl : Int) (e0 : Edge) (r1 r2 : RoomId)
    (h1 : roomAt (createGameMap g lvl).tiles (edgeSides e0).1.x (edgeSides e0).1.y = some r1)
    (h2 : roomAt (createGameMap g lvl).tiles (edgeSides e0).2.x (edgeSides e0).2.y = some r2)
    (hne : r1 ≠ r2) :
    (∃ e, doorBetween (createGameMap g lvl) r1 r2 e ∧
       ∀ e2, doorBetween (createGameMap g lvl) r1 r2 e2 → e2 = e) ∧
    (∀ e d, (createGameMap g lvl).doors.get e = some d →
       ∃ ra rb rooma roomb,
         roomAt (createGameMap g lvl).tiles d.tile1.x d.tile1.y = some ra ∧
         roomAt (createGameMap g lvl).tiles d.tile2.x d.tile2.y = some rb ∧ ra ≠ rb ∧
         (createGameMap g lvl).rooms.lookup ra = some rooma ∧ (rb, e) ∈ rooma.adjacent ∧
         (createGameMap g lvl).rooms.lookup rb = some roomb ∧ (ra, e) ∈ roomb.adjacent ∧
         d.isOpen = false) := by
  have htiles : (createGameMap g lvl).tiles = (growAll g).1 := rfl
  have hrooms : (createGameMap g lvl).rooms = (doorStage g).rooms := rfl
  have hinv := prunedRooms_inv g
  have hcinv := wallPass_candInv (growAll g).1 (prunedRooms g)
  have hshape := doorStage_shape g
  have hkeysND : ((doorStage g).rooms.map Prod.fst).Nodup := by
    have hfsts : (doorStage g).rooms.map Prod.fst = (prunedRooms g).map Prod.fst := by
      have hh := congrArg (List.map Prod.fst) hshape
      simpa [List.map_map, Function.comp] using hh
    rw [hfsts]
    exact hinv.keysNodup
  -- the adjacency payload of any recorded door, used by both conjuncts
  have registration : ∀ e d, (doorStage g).doors e = some d →
      ∃ ra rb rooma roomb,
        roomAt (growAll g).1 d.tile1.x d.tile1.y = some ra ∧
        roomAt (growAll g).1 d.tile2.x d.tile2.y = some rb ∧ ra ≠ rb ∧
        (doorStage g).rooms.lookup ra = some rooma ∧ (rb, e) ∈ rooma.adjacent ∧
        (doorStage g).rooms.lookup rb = some roomb ∧ (ra, e) ∈ roomb.adjacent ∧
        d.isOpen = false := by
    intro e d hd
    obtain ⟨kv, hkv, hch, hop⟩ := doorStage_doorsOK g e d hd
    have hc : (d.tile1, d.tile2, e) ∈ kv.2 := by
      unfold chosenFor at hch
      exact List.get?_mem hch
    obtain ⟨hs, ra, rb, hA, hB, hab, hkey⟩ := (hcinv.2 kv hkv).2 _ hc
    simp only [] at hA hB
    obtain ⟨hdoor, haj1, haj2⟩ := doorStage_placed g kv hkv d.tile1 d.tile2 e hch
      ra rb hA hB
    obtain ⟨rooma, hma, hena⟩ := haj1
    obtain ⟨roomb, hmb, henb⟩ := haj2
    refine ⟨ra, rb, rooma, roomb, hA, hB, hab, ?_, hena, ?_, henb, hop⟩
    · exact lookup_of_mem_nodup _ _ _ hkeysND hma
    · exact lookup_of_mem_nodup _ _ _ hkeysND hmb
  constructor
  · -- existence and uniqueness of the door for the pair r1, r2
    rw [htiles] at h1 h2
    have htile1 : (growAll g).1 (edgeSides e0).1 = some ⟨r1⟩ := roomAt_some_tile _ _ _ h1
    obtain ⟨room, hm, hp⟩ := hinv.complete _ _ htile1
    have hcand := wallPass_cand_est (growAll g).1 (prunedRooms g) (edgeSides e0).1 r1 room
      hm hp e0 r1 r2 (Or.inl rfl) h1 h2 hne
    rcases hlk : ((wallPass (growAll g).1 (prunedRooms g)).cands).lookup
        (min r1 r2, max r1 r2) with _ | entries
    · rw [hlk] at hcand
      simp at hcand
    · have hkvmem : ((min r1 r2, max r1 r2), entries) ∈ (wallStage g).cands :=
        lookup_mem _ _ _ hlk
      have hnonempty : entries ≠ [] := (hcinv.2 _ hkvmem).1
      have hlen : 0 < entries.length := List.length_pos.mpr hnonempty
      have hidx : (g.doorPick (min r1 r2) (max r1 r2)) % entries.length < entries.length :=
        Nat.mod_lt _ hlen
      rcases hch : chosenFor g ((min r1 r2, max r1 r2), entries) with _ | c
      · exfalso
        unfold chosenFor at hch
        rw [List.get?_eq_none] at hch
        have hle : entries.length ≤ g.doorPick (min r1 r2) (max r1 r2) % entries.length := hch
        omega
      have hcmem : c ∈ entries := by
        unfold chosenFor at hch
        exact List.get?_mem hch
      obtain ⟨hs, ra, rb, hA, hB, hab, hkey⟩ := (hcinv.2 _ hkvmem).2 c hcmem
      obtain ⟨t1, t2, ed⟩ := c
      simp only [] at hs hA hB
      obtain ⟨hdoor, haj1, haj2⟩ := doorStage_placed g _ hkvmem t1 t2 ed hch ra rb hA hB
      have hpair : (ra = r1 ∧ rb = r2) ∨ (ra = r2 ∧ rb = r1) :=
        minmax_pair_eq ra rb r1 r2 hkey.symm
      refine ⟨ed, ⟨⟨t1, t2, false⟩, hdoor, ?_⟩, ?_⟩
      · rcases hpair with ⟨hra, hrb⟩ | ⟨hra, hrb⟩
        · left
          rw [htiles]
          exact ⟨by rw [← hra]; exact hA, by rw [← hrb]; exact hB⟩
        · right
          rw [htiles]
          exact ⟨by rw [← hra]; exact hA, by rw [← hrb]; exact hB⟩
      · -- uniqueness
        intro e2 hbet
        obtain ⟨d2, hd2, hsides2⟩ := hbet
        rw [htiles] at hsides2
        obtain ⟨kv2, hkv2, hch2, _⟩ := doorStage_doorsOK g e2 d2 hd2
        have hc2 : (d2.tile1, d2.tile2, e2) ∈ kv2.2 := by
          unfold chosenFor at hch2
          exact List.get?_mem hch2
        obtain ⟨hs2, ra2, rb2, hA2, hB2, hab2, hkey2⟩ := (hcinv.2 kv2 hkv2).2 _ hc2
        simp only [] at hA2 hB2
        -- the pair key of kv2 is the same unordered pair
        have hk2 : kv2.1 = (min r1 r2, max r1 r2) := by
          rcases hsides2 with ⟨hx1, hx2⟩ | ⟨hx1, hx2⟩
          · rw [hA2] at hx1
            rw [hB2] at hx2
            injection hx1 with e1'
            injection hx2 with e2'
            rw [hkey2, e1', e2']
          · rw [hA2] at hx1
            rw [hB2] at hx2
            injection hx1 with e1'
            injection hx2 with e2'
            rw [hkey2, e1', e2']
            rw [Nat.min_comm r2 r1, Nat.max_comm r2 r1]
        have hkv2eq : kv2 = ((min r1 r2, max r1 r2), entries) := by
          have : kv2 = (kv2.1, kv2.2) := rfl
          rw [this, hk2]
          have := nodupFst_mem_eq (wallStage g).cands (min r1 r2, max r1 r2) kv2.2 entries
            hcinv.1 (by rw [← hk2]; exact hkv2) hkvmem
          rw [this]
        rw [hkv2eq] at hch2
        rw [hch] at hch2
        injection hch2 with hch3
        injection hch3 with _ hch4
        injection hch4 with _ hch5
        exact hch5.symm
  · intro e d hd
    obtain ⟨ra, rb, rooma, roomb, hA, hB, hab, hla, hena, hlb, henb, hop⟩ :=
      registration e d hd
    exact ⟨ra, rb, rooma, roomb, hA, hB, hab, hla, hena, hlb, henb, hop⟩

theorem C6_tile_uniqueness_witness :
    (roomCorner2.tiles.Nodup ∧ roomCorner2.tiles ≠ [] ∧
      ∀ p ∈ roomCorner2.tiles, (createGameMap genCorner 1).tiles.get p = some ⟨2⟩) ∧
    (⟨2, 2⟩ : Point) ∉ roomCorner0.tiles :=
  ⟨(C6_tile_uniqueness genCorner 1).1 (2, roomCorner2) (by decide),
   (C6_tile_uniqueness genCorner 1).2 2 roomCorner2 0 roomCorner0 (by decide) (by decide)
     (by decide) ⟨2, 2⟩ (by decide)⟩

theorem C7_rooms_eight_connected_witness : connFrom roomCorner2.tiles :=
  C7_rooms_eight_connected genCorner 1 (2, roomCorner2) (by decide)

theorem C4_wall_room_consistency_witness :
    (roomAt (createGameMap genCorner 1).tiles (edgeSides ⟨3, 3, Side.W⟩).1.x
        (edgeSides ⟨3, 3, Side.W⟩).1.y ≠
      roomAt (createGameMap genCorner 1).tiles (edgeSides ⟨3, 3, Side.W⟩).2.x
        (edgeSides ⟨3, 3, Side.W⟩).2.y) ∧
    (roomAt (createGameMap genCorner 1).tiles (edgeSides ⟨1, 4, Side.W⟩).1.x
        (edgeSides ⟨1, 4, Side.W⟩).1.y =
      roomAt (createGameMap genCorner 1).tiles (edgeSides ⟨1, 4, Side.W⟩).2.x
        (edgeSides ⟨1, 4, Side.W⟩).2.y ∨
     roomAt (createGameMap genCorner 1).tiles (edgeSides ⟨1, 4, Side.W⟩).1.x
        (edgeSides ⟨1, 4, Side.W⟩).1.y = none ∨
     roomAt (createGameMap genCorner 1).tiles (edgeSides ⟨1, 4, Side.W⟩).2.x
        (edgeSides ⟨1, 4, Side.W⟩).2.y = none) :=
  ⟨(C4_wall_room_consistency genCorner 1 ⟨3, 3, Side.W⟩).1 (Or.inr (by decide)),
   (C4_wall_room_consistency genCorner 1 ⟨1, 4, Side.W⟩).2 ⟨by decide, by decide⟩⟩

theorem C5_door_per_pair_witness :
    (∃ e, doorBetween (createGameMap genCorner 1) 2 0 e ∧
       ∀ e2, doorBetween (createGameMap genCorner 1) 2 0 e2 → e2 = e) ∧
    (∀ e d, (createGameMap genCorner 1).doors.get e = some d →
       ∃ ra rb rooma roomb,
         roomAt (createGameMap genCorner 1).tiles d.tile1.x d.tile1.y = some ra ∧
         roomAt (createGameMap genCorner 1).tiles d.tile2.x d.tile2.y = some rb ∧ ra ≠ rb ∧
         (createGameMap genCorner 1).rooms.lookup ra = some rooma ∧ (rb, e) ∈ rooma.adjacent ∧
         (createGameMap genCorner 1).rooms.lookup rb = some roomb ∧ (ra, e) ∈ roomb.adjacent ∧
         d.isOpen = false) :=
  C5_door_per_pair genCorner 1 ⟨2, 3, Side.N⟩ 2 0 (by decide) (by decide) (by decide)

/-! ### The growth loop's fuel is never binding -/

theorem freeSet_set_erase (b : Bounds) (tiles : TileMap) (p : Point) (v : TileData) :
    freeSet b (tiles.set p v) = (freeSet b tiles).erase (p.x, p.y) := by
  unfold freeSet
  ext q
  simp only [Finset.mem_filter, Finset.mem_erase]
  constructor
  · rintro ⟨hbox, hnone⟩
    unfold TileMap.set at hnone
    by_cases hq : (⟨q.1, q.2⟩ : Point) = p
    · rw [if_pos hq] at hnone
      exact absurd hnone (by simp)
    · rw [if_neg hq] at hnone
      refine ⟨?_, hbox, hnone⟩
      intro hc
      apply hq
      rw [hc]
  · rintro ⟨hne, hbox, hnone⟩
    refine ⟨hbox, ?_⟩
    unfold TileMap.set
    have hq : ¬ ((⟨q.1, q.2⟩ : Point) = p) := by
      intro hc
      apply hne
      rw [← hc]
    rw [if_neg hq]
    exact hnone

theorem expand_free_count (roomId : Nat) (b : Bounds) (current : Point) :
    ∀ (dirs : List (Int × Int)) (acc : TileMap × List Point),
    (freeSet b (dirs.foldl (expandTile roomId b current) acc).1).card +
      (dirs.foldl (expandTile roomId b current) acc).2.length =
    (freeSet b acc.1).card + acc.2.length := by
  intro dirs
  induction dirs with
  | nil => intro acc; rfl
  | cons d rest ih =>
    intro acc
    simp only [List.foldl_cons]
    rw [ih]
    by_cases hskip : current.x + d.1 < b.left ∨ current.x + d.1 > b.right ∨
        current.y + d.2 < b.top ∨ current.y + d.2 > b.bottom
    · have heq : expandTile roomId b current acc d = acc := by
        unfold expandTile
        rw [if_pos hskip]
      rw [heq]
    · by_cases hhas : acc.1.has ⟨current.x + d.1, current.y + d.2⟩ = true
      · have heq : expandTile roomId b current acc d = acc := by
          unfold expandTile
          rw [if_neg hskip, if_pos hhas]
        rw [heq]
      · have heq : expandTile roomId b current acc d =
            (acc.1.set ⟨current.x + d.1, current.y + d.2⟩ ⟨roomId⟩,
             acc.2 ++ [(⟨current.x + d.1, current.y + d.2⟩ : Point)]) := by
          unfold expandTile
          rw [if_neg hskip, if_neg hhas]
        rw [heq]
        simp only [List.length_append, List.length_singleton]
        rw [freeSet_set_erase]
        have hmem : ((⟨current.x + d.1, current.y + d.2⟩ : Point).x,
            (⟨current.x + d.1, current.y + d.2⟩ : Point).y) ∈ freeSet b acc.1 := by
          unfold freeSet
          push_neg at hskip
          refine Finset.mem_filter.mpr ⟨?_, ?_⟩
          · refine Finset.mem_product.mpr ⟨?_, ?_⟩
            · exact Finset.mem_Icc.mpr ⟨hskip.1, hskip.2.1⟩
            · exact Finset.mem_Icc.mpr ⟨hskip.2.2.1, hskip.2.2.2⟩
          · unfold TileMap.has at hhas
            rcases hx : acc.1 ⟨current.x + d.1, current.y + d.2⟩ with _ | v
            · rfl
            · rw [hx] at hhas
              simp at hhas
        rw [Finset.card_erase_of_mem hmem]
        have hpos : 0 < (freeSet b acc.1).card := Finset.card_pos.mpr ⟨_, hmem⟩
        omega

theorem bfsLoop_fuel_free (roomId : Nat) (b : Bounds) :
    ∀ (n : Nat) (tiles : TileMap) (done pending : List Point) (fuel fuel2 : Nat),
    pending.length + 2 * (freeSet b tiles).card ≤ n →
    n ≤ fuel → n ≤ fuel2 →
    bfsLoop roomId b fuel tiles done pending = bfsLoop roomId b fuel2 tiles done pending := by
  intro n
  induction n with
  | zero =>
    intro tiles done pending fuel fuel2 hm _ _
    have : pending = [] := by
      rcases pending with _ | ⟨c, r⟩
      · rfl
      · simp at hm
    subst this
    rcases fuel with _ | f <;> rcases fuel2 with _ | f2 <;> simp only [bfsLoop]
  | succ n ih =>
    intro tiles done pending fuel fuel2 hm h1 h2
    rcases pending with _ | ⟨current, rest⟩
    · rcases fuel with _ | f <;> rcases fuel2 with _ | f2 <;> simp only [bfsLoop]
    · have hf : ∃ f, fuel = f + 1 := by
        rcases fuel with _ | f
        · exfalso
          omega
        · exact ⟨f, rfl⟩
      have hf2 : ∃ f2, fuel2 = f2 + 1 := by
        rcases fuel2 with _ | f2
        · exfalso
          omega
        · exact ⟨f2, rfl⟩
      obtain ⟨f, rfl⟩ := hf
      obtain ⟨f2, rfl⟩ := hf2
      simp only [bfsLoop]
      have hcount := expand_free_count roomId b current DIRS_8 (tiles, [])
      apply ih
      · simp only [List.length_append]
        simp only [List.length_cons] at hm
        simp only [List.length_nil] at hcount
        omega
      · omega
      · omega

theorem card_Icc_le (lo hi bound : Int) (hlo : 0 ≤ lo) (hhi : hi ≤ bound - 1) (hb : 0 ≤ bound) :
    (Finset.Icc lo hi).card ≤ bound.toNat := by
  rw [Int.card_Icc]
  omega

/-- The fuel passed to the growth loop is never the binding constraint:
starting from a fresh seed, the loop drains its queue in at most
`1 + 2·(40·30) < 2500` iterations, so `growRoom` computes the loop's true
fixpoint — the same result as with any larger fuel. -/
theorem growRoom_fuel_irrelevant (g : Gen) (roomId : Nat) (tiles : TileMap) :
    ∀ fuel, BFS_FUEL ≤ fuel →
    bfsLoop roomId (boundsFor (g.seeds roomId) (roomSizeFor g roomId).1 (roomSizeFor g roomId).2)
        BFS_FUEL (tiles.set (g.seeds roomId) ⟨roomId⟩) [] [g.seeds roomId] =
    bfsLoop roomId (boundsFor (g.seeds roomId) (roomSizeFor g roomId).1 (roomSizeFor g roomId).2)
        fuel (tiles.set (g.seeds roomId) ⟨roomId⟩) [] [g.seeds roomId] := by
  intro fuel hfuel
  set b := boundsFor (g.seeds roomId) (roomSizeFor g roomId).1 (roomSizeFor g roomId).2 with hb
  apply bfsLoop_fuel_free roomId b BFS_FUEL
  · have hcard : (freeSet b (tiles.set (g.seeds roomId) ⟨roomId⟩)).card ≤ 1200 := by
      have hle : (freeSet b (tiles.set (g.seeds roomId) ⟨roomId⟩)).card ≤
          ((Finset.Icc b.left b.right) ×ˢ (Finset.Icc b.top b.bottom)).card :=
        Finset.card_filter_le _ _
      rw [Finset.card_product] at hle
      have hx : (Finset.Icc b.left b.right).card ≤ (40 : Int).toNat := by
        refine card_Icc_le b.left b.right 40 ?_ ?_ (by omega)
        · exact le_max_left 0 _
        · exact min_le_left _ _
      have hy : (Finset.Icc b.top b.bottom).card ≤ (30 : Int).toNat := by
        refine card_Icc_le b.top b.bottom 30 ?_ ?_ (by omega)
        · exact le_max_left 0 _
        · exact min_le_left _ _
      calc (freeSet b (tiles.set (g.seeds roomId) ⟨roomId⟩)).card
          ≤ (Finset.Icc b.left b.right).card * (Finset.Icc b.top b.bottom).card := hle
        _ ≤ (40 : Int).toNat * (30 : Int).toNat :=
            Nat.mul_le_mul hx hy
        _ = 1200 := rfl
    simp only [List.length_singleton]
    unfold BFS_FUEL
    omega
  · exact le_refl _
  · exact hfuel
